import Mathlib

/-!
Verification of the mycache-go cache library core.

The repository contains two generations of the `Group` orchestration code:

* the *classic* generation (ported from groupcache): a flat LRU store
  (`package lru`), a byte-accounted `cache` wrapper around it, and a `Group`
  whose `load` re-checks the cache inside singleflight and whose
  `populateCache` evicts across both shards until
  `mainCache.bytes + hotCache.bytes <= cacheBytes`;

* the *batch* generation: an LRU-K store (`lru_k.go`), a byte-accounted
  `cache` wrapper (`cache.go`), a `HeavyKeeper` hot-key sketch, and a `Group`
  (batch API) whose `populateCache` only drives the target shard below the
  budget, whose `load` has no in-flight cache re-check, and whose
  `getFromPeer` admits fetched values into `mainCache`.

Both generations are embedded below.  Go maps backing a queue are modelled by
association lists (the queue itself) together with `qlookup`/`qerase`;
`map[string]int` counters are modelled as total functions `String → Nat`
(Go's zero-value default).  Wall-clock fields (`accessTime`, `lastDecay`) are
not modelled: no control flow in the embedded operations reads them.
`float64` counters of the HeavyKeeper are modelled as exact rationals; every
property proved below depends only on the comparison structure of the code,
not on rounding.  Randomness (`rand.Intn`, `rand.Float64`) is modelled by
explicit oracle parameters.  Unbounded Go `for` loops are modelled with a
fuel parameter that returns `none` when the loop would diverge; supplying
fuel `entries + 1` is exact because every loop iteration that makes progress
removes one entry.
-/

set_option maxHeartbeats 1000000
set_option maxRecDepth 8000

namespace MyCache

/-- Association-list lookup, modelling Go's `map[string]T` read combined with
the `list.Element` the map points to. -/
def qlookup {α : Type} (k : String) : List (String × α) → Option α
  | [] => none
  | p :: ps => if p.1 = k then some p.2 else qlookup k ps

/-- Removal of the (first) element of a queue holding `k`, modelling
`list.Remove` of the element the Go map points to. -/
def qerase {α : Type} (k : String) : List (String × α) → List (String × α)
  | [] => []
  | p :: ps => if p.1 = k then ps else p :: qerase k ps

/-- Remove the back element of a queue (`list.Back` + `list.Remove`),
returning the remaining queue and the removed element (as a list, empty when
the queue was empty). -/
def popBack {α : Type} : List α → List α × List α
  | [] => ([], [])
  | [e] => ([], [e])
  | a :: b :: t =>
    let r := popBack (b :: t)
    (a :: r.1, r.2)

/-- ByteView (byteview.go): an immutable view of bytes.  The Go dual
bytes/string storage is an optimisation; the abstract content is a single
string. -/
structure ByteView where
  s : String
deriving DecidableEq, Repr

/-- `ByteView.Len`. -/
def ByteView.len (v : ByteView) : Nat := v.s.length

/-- Size contribution of one entry: `len(key) + value.Len()`. -/
def entrySize (p : String × ByteView) : Int := (p.1.length : Int) + (p.2.len : Int)

/-- Sum of `entrySize` over a queue. -/
def evSum (l : List (String × ByteView)) : Int := (l.map entrySize).sum

/-! ## LRU-K store (lru_k.go) -/

/-- `LRUKCache` state.  `cacheList` is the Resident queue, `historyList` the
History queue, both front-first.  `accessCount` models the Go
`map[string]int` (absent keys read as 0).  The `accessTime` map is not
modelled: no branch of the code reads it. -/
structure LRUKCache where
  maxEntries : Int
  k : Nat
  cacheList : List (String × ByteView)
  historyList : List (String × ByteView)
  accessCount : String → Nat

/-- `NewLRUK`. -/
def NewLRUK (maxEntries : Int) (k : Int) : LRUKCache :=
  { maxEntries := maxEntries
    k := if k < 1 then 2 else k.toNat
    cacheList := []
    historyList := []
    accessCount := fun _ => 0 }

/-- Total number of entries (`Len`). -/
def lenK (c : LRUKCache) : Int := ((c.cacheList.length + c.historyList.length : Nat) : Int)

/-- `promoteToCache`: remove from History, push to Resident front. -/
def promoteToCache (c : LRUKCache) (key : String) (value : ByteView) : LRUKCache :=
  { c with
    historyList := qerase key c.historyList
    cacheList := (key, value) :: c.cacheList }

/-- `RemoveOldest`: prefer evicting the back of History; else the back of
Resident; no-op when empty.  Returns the evicted entries (passed to the
`OnEvicted` callback). -/
def removeOldestK (c : LRUKCache) : LRUKCache × List (String × ByteView) :=
  if c.historyList.isEmpty then
    (if c.cacheList.isEmpty then (c, [])
     else ({ c with cacheList := (popBack c.cacheList).1 }, (popBack c.cacheList).2))
  else
    ({ c with historyList := (popBack c.historyList).1 }, (popBack c.historyList).2)

/-- The `for c.historyList.Len() > maxHistorySize` trim loop of
`enforceMaxEntries`, with fuel. -/
def trimHistory : Nat → Int → LRUKCache → LRUKCache × List (String × ByteView)
  | 0, _, c => (c, [])
  | fuel + 1, mh, c =>
    if (c.historyList.length : Int) > mh then
      let r := trimHistory fuel mh { c with historyList := (popBack c.historyList).1 }
      (r.1, (popBack c.historyList).2 ++ r.2)
    else (c, [])

/-- The `for c.Len() > c.maxEntries` loop of `enforceMaxEntries`, with fuel. -/
def enforceLoop : Nat → LRUKCache → LRUKCache × List (String × ByteView)
  | 0, c => (c, [])
  | fuel + 1, c =>
    if lenK c > c.maxEntries then
      let r1 := removeOldestK c
      let r2 := enforceLoop fuel r1.1
      (r2.1, r1.2 ++ r2.2)
    else (c, [])

/-- `enforceMaxEntries`. -/
def enforceMaxEntries (c : LRUKCache) : LRUKCache × List (String × ByteView) :=
  if c.maxEntries ≤ 0 then (c, [])
  else
    let mh0 := Int.tdiv c.maxEntries 2
    let mh := if mh0 < 1 then 1 else mh0
    let r1 := trimHistory c.historyList.length mh c
    let r2 := enforceLoop (r1.1.cacheList.length + r1.1.historyList.length) r1.1
    (r2.1, r1.2 ++ r2.2)

/-- `LRUKCache.Add`. -/
def addK (c : LRUKCache) (key : String) (value : ByteView) : LRUKCache × List (String × ByteView) :=
  match qlookup key c.cacheList with
  | some _ => ({ c with cacheList := (key, value) :: qerase key c.cacheList }, [])
  | none =>
    match qlookup key c.historyList with
    | some _ =>
      let cnt := c.accessCount key + 1
      let c1 := { c with accessCount := fun k' => if k' = key then cnt else c.accessCount k' }
      if c1.k ≤ cnt then (promoteToCache c1 key value, [])
      else ({ c1 with historyList := (key, value) :: qerase key c1.historyList }, [])
    | none =>
      let c1 := { c with
        historyList := (key, value) :: c.historyList
        accessCount := fun k' => if k' = key then 1 else c.accessCount k' }
      enforceMaxEntries c1

/-- `LRUKCache.Get`. -/
def getK (c : LRUKCache) (key : String) : LRUKCache × Option ByteView :=
  match qlookup key c.cacheList with
  | some v => ({ c with cacheList := (key, v) :: qerase key c.cacheList }, some v)
  | none =>
    match qlookup key c.historyList with
    | some v =>
      let cnt := c.accessCount key + 1
      let c1 := { c with accessCount := fun k' => if k' = key then cnt else c.accessCount k' }
      if c1.k ≤ cnt then (promoteToCache c1 key v, some v)
      else ({ c1 with historyList := (key, v) :: qerase key c1.historyList }, some v)
    | none => (c, none)

/-- `LRUKCache.Remove`. -/
def removeK (c : LRUKCache) (key : String) : LRUKCache × List (String × ByteView) :=
  let ev1 := match qlookup key c.cacheList with
    | some v => [(key, v)]
    | none => []
  let ev2 := match qlookup key c.historyList with
    | some v => [(key, v)]
    | none => []
  ({ c with
      cacheList := qerase key c.cacheList
      historyList := qerase key c.historyList
      accessCount := fun k' => if k' = key then 0 else c.accessCount k' },
   ev1 ++ ev2)

/-! ## Byte-budgeted shard (cache.go `cache`) -/

/-- The `cache` wrapper of cache.go: an optional lazily-created LRU-K store
plus byte and hit accounting.  The `OnEvicted` callback
(`nbytes -= len(key)+value.Len(); nevict++`) is applied to the evicted
entries returned by the store operations. -/
structure GoCache where
  lru : Option LRUKCache
  nbytes : Int
  nhit : Int
  nget : Int
  nevict : Int

/-- The empty shard (`cache{}`). -/
def emptyGoCache : GoCache := { lru := none, nbytes := 0, nhit := 0, nget := 0, nevict := 0 }

/-- `cache.add`: lazily create `NewLRUK(0, 2)`, add, apply the eviction
callback, then `nbytes += len(key)+value.Len()`. -/
def cacheAdd (c : GoCache) (key : String) (value : ByteView) : GoCache :=
  let lru0 := c.lru.getD (NewLRUK 0 2)
  let r := addK lru0 key value
  { lru := some r.1
    nbytes := c.nbytes - evSum r.2 + entrySize (key, value)
    nhit := c.nhit
    nget := c.nget
    nevict := c.nevict + r.2.length }

/-- `cache.get`. -/
def cacheGet (c : GoCache) (key : String) : GoCache × Option ByteView :=
  match c.lru with
  | none => ({ c with nget := c.nget + 1 }, none)
  | some lru0 =>
    let r := getK lru0 key
    match r.2 with
    | none => ({ c with nget := c.nget + 1, lru := some r.1 }, none)
    | some v => ({ c with nget := c.nget + 1, nhit := c.nhit + 1, lru := some r.1 }, some v)

/-- `cache.remove`. -/
def cacheRemove (c : GoCache) (key : String) : GoCache :=
  match c.lru with
  | none => c
  | some lru0 =>
    let r := removeK lru0 key
    { c with
      lru := some r.1
      nbytes := c.nbytes - evSum r.2
      nevict := c.nevict + r.2.length }

/-- `cache.removeOldest`. -/
def cacheRemoveOldest (c : GoCache) : GoCache :=
  match c.lru with
  | none => c
  | some lru0 =>
    let r := removeOldestK lru0
    { c with
      lru := some r.1
      nbytes := c.nbytes - evSum r.2
      nevict := c.nevict + r.2.length }

/-- The entries currently held by a shard (Resident followed by History). -/
def entriesOf (c : GoCache) : List (String × ByteView) :=
  match c.lru with
  | none => []
  | some l => l.cacheList ++ l.historyList

/-- Sum of `len(key)+value.Len()` over a shard's current entries. -/
def sumBytes (c : GoCache) : Int := evSum (entriesOf c)

/-! ## HeavyKeeper (cache.go)

`float64` counters are modelled as exact rationals.  The FNV row hashes and
the fingerprint hash are modelled as function parameters (`hashFn`, `fpFn`);
the Go `hash` already reduces modulo `width`, which the model applies at the
use site.  `rand.Float64()` draws are supplied by an explicit oracle list
(an exhausted oracle reads 1, which never satisfies `r < prob` since
`prob ≤ 1/2` there).  The `container/heap` min-heap is modelled as the list
of its items: `Push` appends, `Pop` removes a minimal item, `Fix`/`Init`
only reorder and are the identity on the membership-level model.  The heap
root `(*hk.hotKeys)[0]` of a min-heap is an item of minimal count. -/

/-- An entry of the top-K heap (`HeapItem`); the `index` bookkeeping field is
the list position in this model. -/
structure HeapItem where
  key : String
  count : ℚ
deriving DecidableEq, Repr

/-- Kernel-computable exact rational arithmetic.  Batteries marks
`Rat.add`, `Rat.sub`, `Rat.mul` and `Rat.inv` as `@[irreducible]`, which
blocks evaluating concrete sketch states inside proofs; these equivalents
work through `mkRat` and are proved equal to the standard operations. -/
def qAdd (a b : ℚ) : ℚ := mkRat (a.num * b.den + b.num * a.den) (a.den * b.den)

/-- Exact rational subtraction (see `qAdd`). -/
def qSub (a b : ℚ) : ℚ := mkRat (a.num * b.den - b.num * a.den) (a.den * b.den)

/-- Exact rational multiplication (see `qAdd`). -/
def qMul (a b : ℚ) : ℚ := mkRat (a.num * b.num) (a.den * b.den)

/-- Exact rational inverse (see `qAdd`); `1.0 / x` of the Go source is
`qInv x`. -/
def qInv (a : ℚ) : ℚ := Rat.divInt a.den a.num

theorem qAdd_eq (a b : ℚ) : qAdd a b = a + b := (Rat.add_def' a b).symm

theorem qSub_eq (a b : ℚ) : qSub a b = a - b := (Rat.sub_def' a b).symm

theorem qMul_eq (a b : ℚ) : qMul a b = a * b := by
  rw [Rat.mul_def, Rat.normalize_eq_mkRat]
  rfl

theorem qInv_eq (a : ℚ) : qInv a = a⁻¹ := (Rat.inv_def' a).symm

/-- Matrix read `m[i][j]` with a default for out-of-range (never hit on
well-shaped states). -/
def mget {α : Type} (dflt : α) (m : List (List α)) (i j : Nat) : α :=
  (m.getD i []).getD j dflt

/-- Matrix write `m[i][j] = x`. -/
def mset {α : Type} (m : List (List α)) (i j : Nat) (x : α) : List (List α) :=
  m.set i ((m.getD i []).set j x)

/-- `math.MaxFloat64`, exactly (the factored form keeps every exponent
below the elaborator's exponentiation threshold; `maxFloat64_eq` states the
usual form). -/
def maxFloat64 : ℚ := mkRat (((2 ^ 256 : Nat) ^ 3 * 2 ^ 203 * (2 ^ 53 - 1) : Nat) : Int) 1

theorem maxFloat64_eq : maxFloat64 = (2 : ℚ) ^ 1024 - 2 ^ 971 := by
  rw [maxFloat64]
  norm_num

/-- Running minimum with `none` as the `math.MaxFloat64` sentinel
(`if c < minCount { minCount = c }`). -/
def minMerge (m : Option ℚ) (c : ℚ) : ℚ :=
  match m with
  | none => c
  | some m => if c < m then c else m

/-- `HeavyKeeper` state. -/
structure HeavyKeeper where
  width : Nat
  depth : Nat
  decayFactor : ℚ
  minCount : Nat
  topK : Nat
  counters : List (List ℚ)
  fingerprint : List (List Nat)
  hotKeys : List HeapItem
  hashFn : Nat → String → Nat
  fpFn : String → Nat

/-- `NewHeavyKeeper` with its parameter clamping; the hash functions replace
the randomly seeded FNV hashes. -/
def NewHeavyKeeper (width depth topK : Int) (decay : ℚ)
    (hashFn : Nat → String → Nat) (fpFn : String → Nat) : HeavyKeeper :=
  let w : Nat := if width < 100 then 1000 else width.toNat
  let d : Nat := if depth < 3 then 4 else depth.toNat
  let dc : ℚ := if decay ≤ 0 ∨ 1 ≤ decay then mkRat 95 100 else decay
  let tk : Nat := if topK < 10 then 100 else topK.toNat
  { width := w
    depth := d
    decayFactor := dc
    minCount := 10
    topK := tk
    counters := List.replicate d (List.replicate w 0)
    fingerprint := List.replicate d (List.replicate w 0)
    hotKeys := []
    hashFn := hashFn
    fpFn := fpFn }

/-- Count of the heap root of a min-heap: the minimal count held (Go indexes
`(*hk.hotKeys)[0]`, which panics on an empty heap; the model returns 0
there). -/
def heapMinCount (l : List HeapItem) : ℚ :=
  match l with
  | [] => 0
  | it :: its => its.foldl (fun m j => if j.count < m then j.count else m) it.count

/-- Drop the first item carrying count `m`. -/
def heapDropFirst (m : ℚ) : List HeapItem → List HeapItem
  | [] => []
  | it :: its => if it.count = m then its else it :: heapDropFirst m its

/-- `heap.Pop` on the membership model: drop the first item carrying the
minimal count. -/
def heapPopMin (l : List HeapItem) : List HeapItem :=
  heapDropFirst (heapMinCount l) l

/-- `HeavyKeeper.updateHotKeys`. -/
def updateHotKeys (hk : HeavyKeeper) (key : String) (count : ℚ) : HeavyKeeper :=
  if count < (hk.minCount : ℚ) then hk
  else if hk.hotKeys.any (fun it => it.key = key) then
    { hk with hotKeys := hk.hotKeys.map (fun it => if it.key = key then { it with count := count } else it) }
  else if hk.hotKeys.length < hk.topK then
    { hk with hotKeys := hk.hotKeys ++ [⟨key, count⟩] }
  else if heapMinCount hk.hotKeys < count then
    { hk with hotKeys := heapPopMin hk.hotKeys ++ [⟨key, count⟩] }
  else hk

/-- Accumulator for the per-row loop of `HeavyKeeper.Add`: the counter and
fingerprint matrices, the remaining random oracle, and the running minimum
(`none` standing for `math.MaxFloat64`). -/
structure RowAcc where
  cs : List (List ℚ)
  fps : List (List Nat)
  rs : List ℚ
  minC : Option ℚ

/-- One row update of `HeavyKeeper.Add`, including the trailing running-min
update (which only fires when the row's fingerprint matches after the
update). -/
def hkRowStep (width : Nat) (hashFn : Nat → String → Nat) (fp : Nat) (key : String)
    (acc : RowAcc) (i : Nat) : RowAcc :=
  let pos := hashFn i key % width
  if mget 0 acc.fps i pos = fp ∨ mget 0 acc.fps i pos = 0 then
    let cs' := mset acc.cs i pos (qAdd (mget 0 acc.cs i pos) 1)
    let fps' := mset acc.fps i pos fp
    { cs := cs', fps := fps', rs := acc.rs, minC := some (minMerge acc.minC (mget 0 cs' i pos)) }
  else
    let prob := qInv (qAdd (mget 0 acc.cs i pos) 1)
    let r := acc.rs.headD 1
    let rs' := acc.rs.tail
    if r < prob then
      let c' := qSub (mget 0 acc.cs i pos) 1
      if c' ≤ 0 then
        { cs := mset acc.cs i pos 1, fps := mset acc.fps i pos fp, rs := rs',
          minC := some (minMerge acc.minC 1) }
      else
        { cs := mset acc.cs i pos c', fps := acc.fps, rs := rs', minC := acc.minC }
    else
      { cs := acc.cs, fps := acc.fps, rs := rs', minC := acc.minC }

/-- The counter-matrix phase of `HeavyKeeper.Add`: update every row and track
the minimum matching counter. -/
def hkSketchUpdate (hk : HeavyKeeper) (key : String) (rands : List ℚ) : RowAcc :=
  (List.range hk.depth).foldl (hkRowStep hk.width hk.hashFn (hk.fpFn key) key)
    { cs := hk.counters, fps := hk.fingerprint, rs := rands, minC := none }

/-- `HeavyKeeper.Add`: sketch update followed by `updateHotKeys` with the
tracked minimum (`math.MaxFloat64` when no row matched). -/
def hkAdd (hk : HeavyKeeper) (key : String) (rands : List ℚ) : HeavyKeeper × List ℚ :=
  let a := hkSketchUpdate hk key rands
  (updateHotKeys { hk with counters := a.cs, fingerprint := a.fps } key (a.minC.getD maxFloat64),
   a.rs)

/-- The matching-row minimum used by `HeavyKeeper.Get`/`getCount`
(`none` when no row holds the key's fingerprint). -/
def hkGetCountOpt (hk : HeavyKeeper) (key : String) : Option ℚ :=
  let fp := hk.fpFn key
  (List.range hk.depth).foldl (fun minC i =>
    let pos := hk.hashFn i key % hk.width
    if mget 0 hk.fingerprint i pos = fp then some (minMerge minC (mget 0 hk.counters i pos))
    else minC) none

/-- `HeavyKeeper.getCount`/`Get`: 0 when no row matches. -/
def hkGetCount (hk : HeavyKeeper) (key : String) : ℚ :=
  (hkGetCountOpt hk key).getD 0

/-- `HeavyKeeper.IsHot`: membership in the top-K set. -/
def hkIsHot (hk : HeavyKeeper) (key : String) : Bool :=
  hk.hotKeys.any (fun it => it.key = key)

/-- `HeavyKeeper.decay`: age every counter, clear cells dropping below 1, and
rebuild the top-K from re-queried counts, dropping keys below `minCount`. -/
def hkDecay (hk : HeavyKeeper) : HeavyKeeper :=
  let cs := hk.counters.map (fun row =>
    row.map (fun c => if qMul c hk.decayFactor < 1 then 0 else qMul c hk.decayFactor))
  let fps := (hk.fingerprint.zip hk.counters).map (fun p =>
    (p.1.zip p.2).map (fun q => if qMul q.2 hk.decayFactor < 1 then 0 else q.1))
  let sk := { hk with counters := cs, fingerprint := fps }
  { sk with
    hotKeys := hk.hotKeys.filterMap (fun it =>
      let nc := hkGetCount sk it.key
      if (hk.minCount : ℚ) ≤ nc then some ⟨it.key, nc⟩ else none) }

/-! ## Batch-generation Group (part_001 `mycache.go`)

Environment parameters: `pick` models `peers.PickPeer` followed by the
remote peer's `Get` (`none` = the local process owns the key, mirroring
`PickPeer`'s `ok=false` and the `NoPeers` picker); `getter` models the
user-supplied origin `Getter` (returning the bytes it writes to its sink, or
an error). -/

/-- Batch `Stats` (part_001; it has no `LoadsDeduped` counter). -/
structure BStats where
  Gets : Int
  CacheHits : Int
  PeerLoads : Int
  PeerErrors : Int
  Loads : Int
  LocalLoads : Int
  LocalLoadErrs : Int
  ServerRequests : Int
deriving DecidableEq, Repr

/-- Batch `Group`. -/
structure BGroup where
  name : String
  cacheBytes : Int
  mainCache : GoCache
  hotCache : Option GoCache
  hotDetector : Option HeavyKeeper
  stats : BStats

/-- Stat bump helper (`AtomicInt.Add(1)`). -/
def bBump (g : BGroup) (f : BStats → BStats) : BGroup := { g with stats := f g.stats }

/-- Environment of a batch `Group`: peer picking/fetching and the origin
getter, both deterministic functions of the key. -/
structure BEnv where
  pick : String → Option (Except String String)
  getter : String → Except String ByteView

/-- The `for cache.bytes() > g.cacheBytes { cache.removeOldest() }` loop of
the batch `populateCache`, with fuel (`none` = the Go loop diverges). -/
def bEvictLoop : Nat → Int → GoCache → Option GoCache
  | 0, _, _ => none
  | fuel + 1, cacheBytes, c =>
    if c.nbytes > cacheBytes then bEvictLoop fuel cacheBytes (cacheRemoveOldest c)
    else some c

/-- Batch `Group.populateCache`: add to the target shard, then evict from
that shard only, until the target shard's own bytes fit the budget. -/
def populateCacheB (cacheBytes : Int) (c : GoCache) (key : String) (value : ByteView) :
    Option GoCache :=
  if cacheBytes ≤ 0 then some c
  else
    let c1 := cacheAdd c key value
    bEvictLoop ((entriesOf c1).length + 1) cacheBytes c1

/-- The mainCache probe of the batch `lookupCache`, including the
hot-detector update and conditional hotCache admission on a hit. -/
def lookupCacheBMain (g : BGroup) (key : String) (rands : List ℚ) :
    BGroup × Option ByteView × List ℚ :=
  let m := cacheGet g.mainCache key
  let g2 := { g with mainCache := m.1 }
  match m.2 with
  | none => (g2, none, rands)
  | some v =>
    match g2.hotDetector with
    | none => (g2, some v, rands)
    | some det =>
      let d := hkAdd det key rands
      let g3 := { g2 with hotDetector := some d.1 }
      if hkIsHot d.1 key then
        match g3.hotCache with
        | some hc => ({ g3 with hotCache := some (cacheAdd hc key v) }, some v, d.2)
        | none => (g3, some v, d.2)
      else (g3, some v, d.2)

/-- Batch `Group.lookupCache`: probe hotCache first, then mainCache. -/
def lookupCacheB (g : BGroup) (key : String) (rands : List ℚ) :
    BGroup × Option ByteView × List ℚ :=
  match g.hotCache with
  | none => lookupCacheBMain g key rands
  | some hc =>
    let h := cacheGet hc key
    match h.2 with
    | some v => ({ g with hotCache := some h.1 }, some v, rands)
    | none => lookupCacheBMain { g with hotCache := some h.1 } key rands

/-- Batch `Group.getFromPeer`: on success the fetched value is admitted into
`mainCache` (the call site passes `&g.mainCache`). -/
def getFromPeerB (g : BGroup) (key : String) (resp : Except String String) :
    Option (BGroup × Except String ByteView) :=
  match resp with
  | .error e => some (g, .error e)
  | .ok bytes =>
    let value : ByteView := ⟨bytes⟩
    (populateCacheB g.cacheBytes g.mainCache key value).map
      (fun m' => ({ g with mainCache := m' }, .ok value))

/-- The local-load tail of the batch `load` callback: bump `LocalLoads`,
run the getter, populate `mainCache`, feed the hot detector.  The `Nat`
result counts getter invocations. -/
def bLocalLoad (env : BEnv) (g1 : BGroup) (key : String) (rands : List ℚ) :
    Option (BGroup × Except String ByteView × Nat × List ℚ) :=
  let g2 := bBump g1 (fun s => { s with LocalLoads := s.LocalLoads + 1 })
  match env.getter key with
  | .error e => some (bBump g2 (fun s => { s with LocalLoadErrs := s.LocalLoadErrs + 1 }),
      .error e, 1, rands)
  | .ok v =>
    (populateCacheB g2.cacheBytes g2.mainCache key v).map (fun m' =>
      let g3 := { g2 with mainCache := m' }
      match g3.hotDetector with
      | none => (g3, .ok v, 1, rands)
      | some det =>
        let d := hkAdd det key rands
        ({ g3 with hotDetector := some d.1 }, .ok v, 1, d.2))

/-- The callback passed to `loader.Do` by the batch `load`.  Note: it does
NOT re-consult `lookupCache`. -/
def loadBodyB (env : BEnv) (g : BGroup) (key : String) (rands : List ℚ) :
    Option (BGroup × Except String ByteView × Nat × List ℚ) :=
  match env.pick key with
  | some resp =>
    match getFromPeerB g key resp with
    | none => none
    | some (g', .ok v) =>
      some (bBump g' (fun s => { s with PeerLoads := s.PeerLoads + 1 }), .ok v, 0, rands)
    | some (g', .error _) =>
      bLocalLoad env (bBump g' (fun s => { s with PeerErrors := s.PeerErrors + 1 })) key rands
  | none => bLocalLoad env g key rands

/-- Batch `Group.load` under single-caller semantics of `loader.Do`
(the concurrent semantics of `Do` itself is the singleflight model below). -/
def loadB (env : BEnv) (g : BGroup) (key : String) (rands : List ℚ) :
    Option (BGroup × Except String ByteView × Nat × List ℚ) :=
  loadBodyB env (bBump g (fun s => { s with Loads := s.Loads + 1 })) key rands

/-- Batch internal `Group.get`: bump `Gets`, reject the empty key, probe
`lookupCache`, else `load`; the result bytes are `value.ByteSlice()`. -/
def getB (env : BEnv) (g : BGroup) (key : String) (rands : List ℚ) :
    Option (BGroup × Except String String × Nat × List ℚ) :=
  let g0 := bBump g (fun s => { s with Gets := s.Gets + 1 })
  if key = "" then some (g0, .error "key is required", 0, rands)
  else
    let l := lookupCacheB g0 key rands
    match l.2.1 with
    | some v =>
      some (bBump l.1 (fun s => { s with CacheHits := s.CacheHits + 1 }), .ok v.s, 0, l.2.2)
    | none =>
      match loadB env l.1 key l.2.2 with
      | none => none
      | some (g2, .error e, n, rs) => some (g2, .error e, n, rs)
      | some (g2, .ok v, n, rs) => some (g2, .ok v.s, n, rs)

/-! ## Classic-generation flat LRU (part_000 `lru.go`) -/

/-- Classic `lru.Cache` at its use type (string keys, ByteView values);
front-first queue. -/
structure LruCache where
  maxEntries : Int
  ll : List (String × ByteView)

/-- Classic `Cache.RemoveOldest`. -/
def lruRemoveOldest (c : LruCache) : LruCache × List (String × ByteView) :=
  ({ c with ll := (popBack c.ll).1 }, (popBack c.ll).2)

/-- Classic `Cache.Add`. -/
def lruAdd (c : LruCache) (key : String) (value : ByteView) :
    LruCache × List (String × ByteView) :=
  match qlookup key c.ll with
  | some _ => ({ c with ll := (key, value) :: qerase key c.ll }, [])
  | none =>
    let c1 := { c with ll := (key, value) :: c.ll }
    if c.maxEntries ≠ 0 ∧ (c1.ll.length : Int) > c.maxEntries then lruRemoveOldest c1
    else (c1, [])

/-- Classic `Cache.Get`. -/
def lruGet (c : LruCache) (key : String) : LruCache × Option ByteView :=
  match qlookup key c.ll with
  | some v => ({ c with ll := (key, v) :: qerase key c.ll }, some v)
  | none => (c, none)

/-! ## Classic byte-budgeted shard (part_000 `cache`) -/

/-- Classic `cache` wrapper around `lru.Cache` (created lazily with
`MaxEntries` 0). -/
structure CCache where
  lru : Option LruCache
  nbytes : Int
  nhit : Int
  nget : Int
  nevict : Int

/-- The empty classic shard. -/
def emptyCCache : CCache := { lru := none, nbytes := 0, nhit := 0, nget := 0, nevict := 0 }

/-- Entries currently held by a classic shard. -/
def entriesC (c : CCache) : List (String × ByteView) :=
  match c.lru with
  | none => []
  | some l => l.ll

/-- Classic `cache.add`. -/
def cAdd (c : CCache) (key : String) (value : ByteView) : CCache :=
  let lru0 := c.lru.getD { maxEntries := 0, ll := [] }
  let r := lruAdd lru0 key value
  { lru := some r.1
    nbytes := c.nbytes - evSum r.2 + entrySize (key, value)
    nhit := c.nhit
    nget := c.nget
    nevict := c.nevict + r.2.length }

/-- Classic `cache.get`. -/
def cGet (c : CCache) (key : String) : CCache × Option ByteView :=
  match c.lru with
  | none => ({ c with nget := c.nget + 1 }, none)
  | some lru0 =>
    let r := lruGet lru0 key
    match r.2 with
    | none => ({ c with nget := c.nget + 1, lru := some r.1 }, none)
    | some v => ({ c with nget := c.nget + 1, nhit := c.nhit + 1, lru := some r.1 }, some v)

/-- Classic `cache.removeOldest`. -/
def cRemoveOldest (c : CCache) : CCache :=
  match c.lru with
  | none => c
  | some lru0 =>
    let r := lruRemoveOldest lru0
    { c with
      lru := some r.1
      nbytes := c.nbytes - evSum r.2
      nevict := c.nevict + r.2.length }

/-! ## Classic Group (part_000 `mycache.go`) -/

/-- Classic `Stats`. -/
structure CStats where
  Gets : Int
  CacheHits : Int
  PeerLoads : Int
  PeerErrors : Int
  Loads : Int
  LoadsDeduped : Int
  LocalLoads : Int
  LocalLoadErrs : Int
  ServerRequests : Int
deriving DecidableEq, Repr

/-- Classic `Group`. -/
structure CGroup where
  name : String
  cacheBytes : Int
  mainCache : CCache
  hotCache : CCache
  stats : CStats

/-- Stat bump helper. -/
def cBump (g : CGroup) (f : CStats → CStats) : CGroup := { g with stats := f g.stats }

/-- The `*cache` argument of the classic `populateCache`: which of the two
shards of the group is targeted. -/
inductive CacheType where
  | main : CacheType
  | hot : CacheType
deriving DecidableEq, Repr

/-- Environment of a classic `Group`: peer picking/fetching, the origin
getter, and the outcome of the `rand.Intn(10) == 0` draw of `getFromPeer`. -/
structure CEnv where
  pick : String → Option (Except String String)
  pop : Bool
  getter : String → Except String ByteView

/-- Classic `Group.lookupCache`: disabled cache short-circuit, then
mainCache, then hotCache. -/
def lookupCacheC (g : CGroup) (key : String) : CGroup × Option ByteView :=
  if g.cacheBytes ≤ 0 then (g, none)
  else
    let m := cGet g.mainCache key
    match m.2 with
    | some v => ({ g with mainCache := m.1 }, some v)
    | none =>
      let h := cGet g.hotCache key
      ({ g with mainCache := m.1, hotCache := h.1 }, h.2)

/-- The eviction loop of the classic `populateCache`: while the combined
bytes exceed the budget, evict from hotCache when
`hotBytes > mainBytes/8`, else from mainCache (fuel-indexed; `none` = the Go
loop diverges). -/
def cEvictLoop : Nat → CGroup → Option CGroup
  | 0, _ => none
  | fuel + 1, g =>
    let mainBytes := g.mainCache.nbytes
    let hotBytes := g.hotCache.nbytes
    if mainBytes + hotBytes ≤ g.cacheBytes then some g
    else if hotBytes > Int.tdiv mainBytes 8 then
      cEvictLoop fuel { g with hotCache := cRemoveOldest g.hotCache }
    else
      cEvictLoop fuel { g with mainCache := cRemoveOldest g.mainCache }

/-- Classic `Group.populateCache`. -/
def populateCacheC (g : CGroup) (key : String) (value : ByteView) (which : CacheType) :
    Option CGroup :=
  if g.cacheBytes ≤ 0 then some g
  else
    let g1 := match which with
      | .main => { g with mainCache := cAdd g.mainCache key value }
      | .hot => { g with hotCache := cAdd g.hotCache key value }
    cEvictLoop ((entriesC g1.mainCache).length + (entriesC g1.hotCache).length + 1) g1

/-- Classic `Group.getFromPeer`: on success, admit into hotCache with the
`rand.Intn(10) == 0` draw (`env.pop`); `mainCache` is never the target. -/
def getFromPeerC (g : CGroup) (key : String) (resp : Except String String) (pop : Bool) :
    Option (CGroup × Except String ByteView) :=
  match resp with
  | .error e => some (g, .error e)
  | .ok bytes =>
    let value : ByteView := ⟨bytes⟩
    if pop then (populateCacheC g key value .hot).map (fun g' => (g', .ok value))
    else some (g, .ok value)

/-- The local-load tail of the classic `load` callback (`getLocally` then
`populateCache` into `mainCache`).  The sink is the caller's `dest`, written
by the getter on success (Getter contract: set exactly once on success); the
`Bool` in the result is `destPopulated`, the `Nat` counts getter
invocations. -/
def cLocalLoad (env : CEnv) (g3 : CGroup) (key : String) (sink : Option ByteView) :
    Option (CGroup × Option ByteView × Except String (ByteView × Bool) × Nat) :=
  match env.getter key with
  | .error e =>
    some (cBump g3 (fun s => { s with LocalLoadErrs := s.LocalLoadErrs + 1 }), sink, .error e, 1)
  | .ok v =>
    let g4 := cBump g3 (fun s => { s with LocalLoads := s.LocalLoads + 1 })
    (populateCacheC g4 key v .main).map (fun g5 => (g5, some v, .ok (v, true), 1))

/-- The callback passed to `loadGroup.Do` by the classic `load`: it
re-consults `lookupCache` first (the documented double-population guard),
then tries the peer, then the local getter. -/
def loadBodyC (env : CEnv) (g : CGroup) (key : String) (sink : Option ByteView) :
    Option (CGroup × Option ByteView × Except String (ByteView × Bool) × Nat) :=
  let l := lookupCacheC g key
  match l.2 with
  | some v => some (cBump l.1 (fun s => { s with CacheHits := s.CacheHits + 1 }), sink,
      .ok (v, false), 0)
  | none =>
    let g2 := cBump l.1 (fun s => { s with LoadsDeduped := s.LoadsDeduped + 1 })
    match env.pick key with
    | some resp =>
      match getFromPeerC g2 key resp env.pop with
      | none => none
      | some (g3, .ok v) =>
        some (cBump g3 (fun s => { s with PeerLoads := s.PeerLoads + 1 }), sink, .ok (v, false), 0)
      | some (g3, .error _) =>
        cLocalLoad env (cBump g3 (fun s => { s with PeerErrors := s.PeerErrors + 1 })) key sink
    | none => cLocalLoad env g2 key sink

/-- Classic `Group.load` under single-caller semantics of `loadGroup.Do`. -/
def loadC (env : CEnv) (g : CGroup) (key : String) (sink : Option ByteView) :
    Option (CGroup × Option ByteView × Except String (ByteView × Bool) × Nat) :=
  loadBodyC env (cBump g (fun s => { s with Loads := s.Loads + 1 })) key sink

/-- Classic `Group.Get`: bump `Gets`, probe `lookupCache` (hit: set the
sink), else `load`; on load error return it with the sink untouched by the
cache layer; otherwise set the sink unless `destPopulated`. -/
def GetC (env : CEnv) (g : CGroup) (key : String) (sink : Option ByteView) :
    Option (CGroup × Option ByteView × Option String) :=
  let g0 := cBump g (fun s => { s with Gets := s.Gets + 1 })
  let l := lookupCacheC g0 key
  match l.2 with
  | some v => some (cBump l.1 (fun s => { s with CacheHits := s.CacheHits + 1 }), some v, none)
  | none =>
    match loadC env l.1 key sink with
    | none => none
    | some (g2, sink2, .error e, _) => some (g2, sink2, some e)
    | some (g2, sink2, .ok (v, destPopulated), _) =>
      if destPopulated then some (g2, sink2, none)
      else some (g2, some v, none)

/-! ## SingleFlight (part_002 `singleflight.go`) — small-step concurrency model

`singleflightGroup.Do` is modelled as a transition system over any number of
threads, each executing `Do(key, fn)`.  Because every access to the map `m`
happens under the single mutex, each locked region is one atomic step:

* `join`: the locked `if c, ok := g.m[key]` found an in-flight call — the
  thread moves to waiting on it (`c.wg.Wait()`);
* `create`: the locked region found no call — it registers a fresh `call`
  and the thread proceeds to run `fn`;
* `finish`: the owner runs `fn` and stores `(c.val, c.err)`, then
  `c.wg.Done()` — the result `r` of the invocation is chosen by the step
  (fn is arbitrary); the call's ghost field `nInv` counts fn invocations;
* `cleanup`: the owner's locked `delete(g.m, key)`, returning `(c.val, c.err)`;
* `joinDone`: a waiter's `c.wg.Wait()` returns (the call has a result) and
  the waiter returns `(c.val, c.err)`. -/

/-- Result of one `fn` invocation: the `(value, err)` pair. -/
structure SFRes where
  val : Nat
  err : Option String
deriving DecidableEq, Repr

/-- A `call` record: its key, its published result (`none` while `fn` is
running), and a ghost counter of `fn` invocations. -/
structure SFCall where
  key : String
  st : Option SFRes
  nInv : Nat
deriving DecidableEq, Repr

/-- Program counter of one thread executing `Do(key, fn)`. -/
inductive SFPc where
  | start (key : String)
  | wait (c : Nat)
  | run (c : Nat)
  | clean (c : Nat)
  | done (c : Nat) (r : SFRes)
deriving DecidableEq, Repr

/-- Global state of the singleflight group plus all threads. -/
structure SFState where
  m : String → Option Nat
  calls : Nat → Option SFCall
  next : Nat
  thr : Nat → Option SFPc

/-- Pointwise update of a thread's pc. -/
def sfSetThr (s : SFState) (t : Nat) (pc : SFPc) : SFState :=
  { s with thr := fun t' => if t' = t then some pc else s.thr t' }

/-- State after the locked region registers a fresh call for `k` and thread
`t` proceeds to run `fn`. -/
def sfCreate (s : SFState) (t : Nat) (k : String) : SFState :=
  { m := fun k' => if k' = k then some s.next else s.m k'
    calls := fun c' => if c' = s.next then some ⟨k, none, 0⟩ else s.calls c'
    next := s.next + 1
    thr := fun t' => if t' = t then some (.run s.next) else s.thr t' }

/-- State after the owner `t` of call `c` runs `fn`, stores `(c.val, c.err)`
and signals `c.wg.Done()`. -/
def sfFinish (s : SFState) (t c : Nat) (call : SFCall) (r : SFRes) : SFState :=
  { s with
    calls := fun c' => if c' = c then some { call with st := some r, nInv := call.nInv + 1 }
      else s.calls c'
    thr := fun t' => if t' = t then some (.clean c) else s.thr t' }

/-- State after the owner's locked `delete(g.m, key)`; the owner returns
`r`. -/
def sfCleanup (s : SFState) (t c : Nat) (call : SFCall) (r : SFRes) : SFState :=
  { s with
    m := fun k' => if k' = call.key then none else s.m k'
    thr := fun t' => if t' = t then some (.done c r) else s.thr t' }

/-- One interleaving step. -/
inductive SFStep : SFState → SFState → Prop where
  | join (s : SFState) (t : Nat) (k : String) (c : Nat) :
      s.thr t = some (.start k) → s.m k = some c →
      SFStep s (sfSetThr s t (.wait c))
  | create (s : SFState) (t : Nat) (k : String) :
      s.thr t = some (.start k) → s.m k = none →
      SFStep s (sfCreate s t k)
  | finish (s : SFState) (t : Nat) (c : Nat) (call : SFCall) (r : SFRes) :
      s.thr t = some (.run c) → s.calls c = some call →
      SFStep s (sfFinish s t c call r)
  | cleanup (s : SFState) (t : Nat) (c : Nat) (call : SFCall) (r : SFRes) :
      s.thr t = some (.clean c) → s.calls c = some call → call.st = some r →
      SFStep s (sfCleanup s t c call r)
  | joinDone (s : SFState) (t : Nat) (c : Nat) (call : SFCall) (r : SFRes) :
      s.thr t = some (.wait c) → s.calls c = some call → call.st = some r →
      SFStep s (sfSetThr s t (.done c r))

theorem sfSetThr_thr (s : SFState) (t : Nat) (pc : SFPc) (t' : Nat) :
    (sfSetThr s t pc).thr t' = if t' = t then some pc else s.thr t' := rfl

theorem sfSetThr_m (s : SFState) (t : Nat) (pc : SFPc) : (sfSetThr s t pc).m = s.m := rfl

theorem sfSetThr_calls (s : SFState) (t : Nat) (pc : SFPc) :
    (sfSetThr s t pc).calls = s.calls := rfl

theorem sfSetThr_next (s : SFState) (t : Nat) (pc : SFPc) :
    (sfSetThr s t pc).next = s.next := rfl

theorem sfCreate_thr (s : SFState) (t : Nat) (k : String) (t' : Nat) :
    (sfCreate s t k).thr t' = if t' = t then some (.run s.next) else s.thr t' := rfl

theorem sfCreate_m (s : SFState) (t : Nat) (k : String) (k' : String) :
    (sfCreate s t k).m k' = if k' = k then some s.next else s.m k' := rfl

theorem sfCreate_calls (s : SFState) (t : Nat) (k : String) (c' : Nat) :
    (sfCreate s t k).calls c' = if c' = s.next then some ⟨k, none, 0⟩ else s.calls c' := rfl

theorem sfCreate_next (s : SFState) (t : Nat) (k : String) :
    (sfCreate s t k).next = s.next + 1 := rfl

theorem sfFinish_thr (s : SFState) (t c : Nat) (call : SFCall) (r : SFRes) (t' : Nat) :
    (sfFinish s t c call r).thr t' = if t' = t then some (.clean c) else s.thr t' := rfl

theorem sfFinish_m (s : SFState) (t c : Nat) (call : SFCall) (r : SFRes) :
    (sfFinish s t c call r).m = s.m := rfl

theorem sfFinish_calls (s : SFState) (t c : Nat) (call : SFCall) (r : SFRes) (c' : Nat) :
    (sfFinish s t c call r).calls c' =
      if c' = c then some { call with st := some r, nInv := call.nInv + 1 } else s.calls c' := rfl

theorem sfFinish_next (s : SFState) (t c : Nat) (call : SFCall) (r : SFRes) :
    (sfFinish s t c call r).next = s.next := rfl

theorem sfCleanup_thr (s : SFState) (t c : Nat) (call : SFCall) (r : SFRes) (t' : Nat) :
    (sfCleanup s t c call r).thr t' = if t' = t then some (.done c r) else s.thr t' := rfl

theorem sfCleanup_m (s : SFState) (t c : Nat) (call : SFCall) (r : SFRes) (k' : String) :
    (sfCleanup s t c call r).m k' = if k' = call.key then none else s.m k' := rfl

theorem sfCleanup_calls (s : SFState) (t c : Nat) (call : SFCall) (r : SFRes) :
    (sfCleanup s t c call r).calls = s.calls := rfl

theorem sfCleanup_next (s : SFState) (t c : Nat) (call : SFCall) (r : SFRes) :
    (sfCleanup s t c call r).next = s.next := rfl

/-- Initial state: thread `i` is about to call `Do(keys[i], fn)`; the group
map is empty. -/
def sfInit (keys : List String) : SFState :=
  { m := fun _ => none
    calls := fun _ => none
    next := 0
    thr := fun t => (keys.get? t).map .start }

/-- Reachability from the initial state. -/
def SFReach (keys : List String) (s : SFState) : Prop :=
  Relation.ReflTransGen SFStep (sfInit keys) s

/-- Thread `t` owns call `c` (it is the thread that registered it and will
run `fn` and clean up). -/
def sfOwns (s : SFState) (t c : Nat) : Prop :=
  s.thr t = some (.run c) ∨ s.thr t = some (.clean c)

/-- The inductive invariant of the singleflight model. -/
structure SFInv (s : SFState) : Prop where
  callsLt : ∀ c, s.next ≤ c → s.calls c = none
  mCalls : ∀ k c, s.m k = some c → ∃ call, s.calls c = some call ∧ call.key = k
  ownerUnique : ∀ t1 t2 c, sfOwns s t1 c → sfOwns s t2 c → t1 = t2
  runSt : ∀ t c, s.thr t = some (.run c) →
    ∃ call, s.calls c = some call ∧ call.st = none ∧ call.nInv = 0 ∧ s.m call.key = some c
  cleanSt : ∀ t c, s.thr t = some (.clean c) →
    ∃ call r, s.calls c = some call ∧ call.st = some r ∧ s.m call.key = some c
  invOnce : ∀ c call, s.calls c = some call →
    (call.st = none ∧ call.nInv = 0) ∨ (∃ r, call.st = some r ∧ call.nInv = 1)
  doneSt : ∀ t c r, s.thr t = some (.done c r) →
    ∃ call, s.calls c = some call ∧ call.st = some r
  waitSt : ∀ t c, s.thr t = some (.wait c) → ∃ call, s.calls c = some call

/-! ## List-level lemmas -/

@[simp] theorem evSum_nil : evSum [] = 0 := rfl

theorem evSum_cons (p : String × ByteView) (l : List (String × ByteView)) :
    evSum (p :: l) = entrySize p + evSum l := by
  simp [evSum]

theorem evSum_append (l1 l2 : List (String × ByteView)) :
    evSum (l1 ++ l2) = evSum l1 + evSum l2 := by
  simp [evSum]

theorem qlookup_append {α : Type} (k : String) (l1 l2 : List (String × α)) :
    qlookup k (l1 ++ l2) = ((qlookup k l1).rec (qlookup k l2) fun v => some v) := by
  induction l1 with
  | nil => simp [qlookup]
  | cons p ps ih =>
    by_cases hp : p.1 = k <;> simp [qlookup, hp, ih]

theorem qerase_of_none {α : Type} {k : String} {l : List (String × α)}
    (h : qlookup k l = none) : qerase k l = l := by
  induction l with
  | nil => rfl
  | cons p ps ih =>
    by_cases hp : p.1 = k
    · simp [qlookup, hp] at h
    · simp only [qlookup, hp, if_false] at h
      simp [qerase, hp, ih h]

theorem evSum_qerase {k : String} {v : ByteView} {l : List (String × ByteView)}
    (h : qlookup k l = some v) : evSum (qerase k l) + entrySize (k, v) = evSum l := by
  induction l with
  | nil => simp [qlookup] at h
  | cons p ps ih =>
    by_cases hp : p.1 = k
    · simp only [qlookup, hp, if_true] at h
      obtain rfl : p.2 = v := by injection h
      simp only [qerase, hp, if_true, evSum_cons]
      have : entrySize (k, p.2) = entrySize p := by
        cases p with
        | mk a b => simp_all
      omega
    · simp only [qlookup, hp, if_false] at h
      simp only [qerase, hp, if_false, evSum_cons]
      have := ih h
      omega

theorem length_qerase {α : Type} {k : String} {v : α} {l : List (String × α)}
    (h : qlookup k l = some v) : (qerase k l).length + 1 = l.length := by
  induction l with
  | nil => simp [qlookup] at h
  | cons p ps ih =>
    by_cases hp : p.1 = k
    · simp [qerase, hp]
    · simp only [qlookup, hp, if_false] at h
      simp only [qerase, hp, if_false, List.length_cons]
      have := ih h
      omega

theorem popBack_append {α : Type} (l : List α) : (popBack l).1 ++ (popBack l).2 = l := by
  induction l with
  | nil => rfl
  | cons a t ih =>
    cases t with
    | nil => rfl
    | cons b t' =>
      simp only [popBack]
      simpa using ih

theorem popBack_fst {α : Type} (l : List α) : (popBack l).1 = l.dropLast := by
  induction l with
  | nil => rfl
  | cons a t ih =>
    cases t with
    | nil => rfl
    | cons b t' =>
      simp only [popBack, List.dropLast_cons₂]
      simpa using ih

theorem popBack_snd {α : Type} (l : List α) : (popBack l).2 = l.getLast?.toList := by
  induction l with
  | nil => rfl
  | cons a t ih =>
    cases t with
    | nil => rfl
    | cons b t' =>
      simp only [popBack]
      rw [List.getLast?_cons_cons]
      simpa using ih

theorem qlookup_eq_none_iff {α : Type} (k : String) (l : List (String × α)) :
    qlookup k l = none ↔ ∀ p ∈ l, p.1 ≠ k := by
  induction l with
  | nil => simp [qlookup]
  | cons p ps ih =>
    by_cases hp : p.1 = k <;> simp [qlookup, hp, ih]

theorem qlookup_none_of_sublist {α : Type} {k : String} {l l' : List (String × α)}
    (hs : l'.Sublist l) (h : qlookup k l = none) : qlookup k l' = none := by
  rw [qlookup_eq_none_iff] at h ⊢
  exact fun p hp => h p (hs.subset hp)

/-! ## LRU-K accounting lemmas -/

/-- All entries of an LRU-K store, Resident then History. -/
def entriesK (c : LRUKCache) : List (String × ByteView) := c.cacheList ++ c.historyList

theorem removeOldestK_sum (c : LRUKCache) :
    evSum (entriesK (removeOldestK c).1) + evSum (removeOldestK c).2 = evSum (entriesK c) := by
  unfold removeOldestK
  by_cases hh : c.historyList.isEmpty
  · by_cases hc : c.cacheList.isEmpty
    · simp [hh, hc, evSum_nil]
    · simp only [hh, hc, if_true, if_false, entriesK, evSum_append]
      have := popBack_append c.cacheList
      calc evSum (popBack c.cacheList).1 + evSum c.historyList + evSum (popBack c.cacheList).2
          = (evSum (popBack c.cacheList).1 + evSum (popBack c.cacheList).2) + evSum c.historyList := by
            omega
        _ = evSum ((popBack c.cacheList).1 ++ (popBack c.cacheList).2) + evSum c.historyList := by
            rw [evSum_append]
        _ = evSum c.cacheList + evSum c.historyList := by rw [this]
  · simp only [hh, if_false, entriesK, evSum_append]
    have := popBack_append c.historyList
    calc evSum c.cacheList + evSum (popBack c.historyList).1 + evSum (popBack c.historyList).2
        = evSum c.cacheList + evSum ((popBack c.historyList).1 ++ (popBack c.historyList).2) := by
          rw [evSum_append]; omega
      _ = evSum c.cacheList + evSum c.historyList := by rw [this]

theorem enforceLoop_sum (fuel : Nat) (c : LRUKCache) :
    evSum (entriesK (enforceLoop fuel c).1) + evSum (enforceLoop fuel c).2 = evSum (entriesK c) := by
  induction fuel generalizing c with
  | zero => simp [enforceLoop]
  | succ n ih =>
    unfold enforceLoop
    by_cases hg : lenK c > c.maxEntries
    · simp only [hg, if_true, evSum_append]
      have h1 := removeOldestK_sum c
      have h2 := ih (removeOldestK c).1
      omega
    · simp [hg]

theorem trimHistory_sum (fuel : Nat) (mh : Int) (c : LRUKCache) :
    evSum (entriesK (trimHistory fuel mh c).1) + evSum (trimHistory fuel mh c).2 =
      evSum (entriesK c) := by
  induction fuel generalizing c with
  | zero => simp [trimHistory]
  | succ n ih =>
    unfold trimHistory
    by_cases hg : (c.historyList.length : Int) > mh
    · simp only [hg, if_true, evSum_append]
      have h2 := ih { c with historyList := (popBack c.historyList).1 }
      have h3 := popBack_append c.historyList
      have h4 : evSum (popBack c.historyList).1 + evSum (popBack c.historyList).2 =
          evSum c.historyList := by
        rw [← evSum_append, h3]
      simp only [entriesK, evSum_append] at h2 ⊢
      omega
    · simp [hg]

theorem enforceMaxEntries_sum (c : LRUKCache) :
    evSum (entriesK (enforceMaxEntries c).1) + evSum (enforceMaxEntries c).2 =
      evSum (entriesK c) := by
  unfold enforceMaxEntries
  by_cases hm : c.maxEntries ≤ 0
  · simp [hm]
  · simp only [hm, if_false, evSum_append]
    have h1 := trimHistory_sum c.historyList.length
      (if Int.tdiv c.maxEntries 2 < 1 then 1 else Int.tdiv c.maxEntries 2) c
    set r1 := trimHistory c.historyList.length
      (if Int.tdiv c.maxEntries 2 < 1 then 1 else Int.tdiv c.maxEntries 2) c
    have h2 := enforceLoop_sum (r1.1.cacheList.length + r1.1.historyList.length) r1.1
    omega

theorem addK_sum_fresh {c : LRUKCache} {key : String} {v : ByteView}
    (hc : qlookup key c.cacheList = none) (hh : qlookup key c.historyList = none) :
    evSum (entriesK (addK c key v).1) + evSum (addK c key v).2 =
      evSum (entriesK c) + entrySize (key, v) := by
  unfold addK
  rw [hc, hh]
  simp only
  have h1 := enforceMaxEntries_sum
    { c with
      historyList := (key, v) :: c.historyList
      accessCount := fun k' => if k' = key then 1 else c.accessCount k' }
  simp only [entriesK, evSum_append, evSum_cons] at h1 ⊢
  omega

theorem getK_sum (c : LRUKCache) (key : String) :
    evSum (entriesK (getK c key).1) = evSum (entriesK c) := by
  unfold getK
  cases hc : qlookup key c.cacheList with
  | some v =>
    simp only [entriesK, evSum_append, evSum_cons]
    have := evSum_qerase hc
    omega
  | none =>
    cases hh : qlookup key c.historyList with
    | some v =>
      simp only
      by_cases hk : c.k ≤ c.accessCount key + 1
      · simp only [hk, if_true, promoteToCache, entriesK, evSum_append, evSum_cons]
        have := evSum_qerase hh
        omega
      · simp only [hk, if_false, entriesK, evSum_append, evSum_cons]
        have := evSum_qerase hh
        omega
    | none => simp [entriesK]

theorem removeK_sum (c : LRUKCache) (key : String) :
    evSum (entriesK (removeK c key).1) + evSum (removeK c key).2 = evSum (entriesK c) := by
  unfold removeK
  simp only [entriesK, evSum_append]
  cases hc : qlookup key c.cacheList with
  | some v =>
    cases hh : qlookup key c.historyList with
    | some w =>
      have e1 := evSum_qerase hc
      have e2 := evSum_qerase hh
      simp only [evSum_cons, evSum_nil, evSum_append]
      omega
    | none =>
      have e1 := evSum_qerase hc
      rw [qerase_of_none hh]
      simp only [evSum_cons, evSum_nil, evSum_append]
      omega
  | none =>
    cases hh : qlookup key c.historyList with
    | some w =>
      have e2 := evSum_qerase hh
      rw [qerase_of_none hc]
      simp only [evSum_cons, evSum_nil, evSum_append]
      omega
    | none =>
      rw [qerase_of_none hc, qerase_of_none hh]
      simp [evSum_nil]


/-! ## Shard-level accounting (claim C4 machinery) -/

/-- A shard's byte counter is exact: `nbytes` equals the sum of
`len(key)+value.Len()` over all resident+history entries. -/
def wfAcct (c : GoCache) : Prop := c.nbytes = sumBytes c

theorem entriesOf_some (l : LRUKCache) (nb nh ng ne : Int) :
    entriesOf { lru := some l, nbytes := nb, nhit := nh, nget := ng, nevict := ne } =
      entriesK l := rfl

theorem cacheAdd_none_eq (nb nh ng ne : Int) (key : String) (v : ByteView) :
    cacheAdd ⟨none, nb, nh, ng, ne⟩ key v =
      ⟨some (addK (NewLRUK 0 2) key v).1,
       nb - evSum (addK (NewLRUK 0 2) key v).2 + entrySize (key, v), nh, ng,
       ne + ((addK (NewLRUK 0 2) key v).2.length : Int)⟩ := rfl

theorem cacheAdd_some_eq (l : LRUKCache) (nb nh ng ne : Int) (key : String) (v : ByteView) :
    cacheAdd ⟨some l, nb, nh, ng, ne⟩ key v =
      ⟨some (addK l key v).1, nb - evSum (addK l key v).2 + entrySize (key, v), nh, ng,
       ne + ((addK l key v).2.length : Int)⟩ := rfl

theorem cacheRemove_some_eq (l : LRUKCache) (nb nh ng ne : Int) (key : String) :
    cacheRemove ⟨some l, nb, nh, ng, ne⟩ key =
      ⟨some (removeK l key).1, nb - evSum (removeK l key).2, nh, ng,
       ne + ((removeK l key).2.length : Int)⟩ := rfl

theorem cacheRemoveOldest_some_eq (l : LRUKCache) (nb nh ng ne : Int) :
    cacheRemoveOldest ⟨some l, nb, nh, ng, ne⟩ =
      ⟨some (removeOldestK l).1, nb - evSum (removeOldestK l).2, nh, ng,
       ne + ((removeOldestK l).2.length : Int)⟩ := rfl

theorem cacheAdd_wf {c : GoCache} {key : String} {v : ByteView}
    (hw : wfAcct c) (hfresh : qlookup key (entriesOf c) = none) :
    wfAcct (cacheAdd c key v) := by
  obtain ⟨lru, nb, nh, ng, ne⟩ := c
  cases lru with
  | none =>
    have h0 := @addK_sum_fresh (NewLRUK 0 2) key v rfl rfl
    have hz : evSum (entriesK (NewLRUK 0 2)) = 0 := rfl
    simp only [entriesK] at h0 hz
    simp only [wfAcct, sumBytes, entriesOf, evSum_nil] at hw
    rw [cacheAdd_none_eq]
    simp only [wfAcct, sumBytes, entriesOf]
    omega
  | some l =>
    simp only [entriesOf, qlookup_append] at hfresh
    have hc : qlookup key l.cacheList = none := by
      cases h : qlookup key l.cacheList with
      | none => rfl
      | some w => rw [h] at hfresh; simp at hfresh
    have hh : qlookup key l.historyList = none := by
      rw [hc] at hfresh
      simpa using hfresh
    have h0 := @addK_sum_fresh l key v hc hh
    simp only [entriesK] at h0
    simp only [wfAcct, sumBytes, entriesOf] at hw
    rw [cacheAdd_some_eq]
    simp only [wfAcct, sumBytes, entriesOf]
    omega

theorem cacheGet_wf {c : GoCache} (key : String) (hw : wfAcct c) :
    wfAcct (cacheGet c key).1 := by
  obtain ⟨lru, nb, nh, ng, ne⟩ := c
  cases lru with
  | none => simpa [wfAcct, sumBytes, entriesOf, cacheGet] using hw
  | some l =>
    have h0 := getK_sum l key
    simp only [entriesK] at h0
    simp only [wfAcct, sumBytes, entriesOf] at hw
    simp only [cacheGet]
    cases hr : (getK l key).2 with
    | none => simp only [wfAcct, sumBytes, entriesOf]; omega
    | some v => simp only [wfAcct, sumBytes, entriesOf]; omega

theorem cacheRemove_wf {c : GoCache} (key : String) (hw : wfAcct c) :
    wfAcct (cacheRemove c key) := by
  obtain ⟨lru, nb, nh, ng, ne⟩ := c
  cases lru with
  | none => simpa [wfAcct, sumBytes, entriesOf, cacheRemove] using hw
  | some l =>
    have h0 := removeK_sum l key
    simp only [entriesK] at h0
    simp only [wfAcct, sumBytes, entriesOf] at hw
    rw [cacheRemove_some_eq]
    simp only [wfAcct, sumBytes, entriesOf]
    omega

theorem cacheRemoveOldest_wf {c : GoCache} (hw : wfAcct c) :
    wfAcct (cacheRemoveOldest c) := by
  obtain ⟨lru, nb, nh, ng, ne⟩ := c
  cases lru with
  | none => simpa [wfAcct, sumBytes, entriesOf, cacheRemoveOldest] using hw
  | some l =>
    have h0 := removeOldestK_sum l
    simp only [entriesK] at h0
    simp only [wfAcct, sumBytes, entriesOf] at hw
    rw [cacheRemoveOldest_some_eq]
    simp only [wfAcct, sumBytes, entriesOf]
    omega

/-- One public shard operation. -/
inductive CacheOp where
  | add (key : String) (value : ByteView)
  | get (key : String)
  | remove (key : String)
  | removeOldest
deriving DecidableEq, Repr

/-- Apply one operation to a shard. -/
def opApply (c : GoCache) : CacheOp → GoCache
  | .add key value => cacheAdd c key value
  | .get key => (cacheGet c key).1
  | .remove key => cacheRemove c key
  | .removeOldest => cacheRemoveOldest c

/-- Run a sequence of operations. -/
def opRun (c : GoCache) (ops : List CacheOp) : GoCache := ops.foldl opApply c

/-- Decidable check that no `add` in the sequence replaces a key already
held at the moment it runs. -/
def freshAdds (c : GoCache) : List CacheOp → Bool
  | [] => true
  | .add key value :: rest =>
    (qlookup key (entriesOf c)).isNone && freshAdds (opApply c (.add key value)) rest
  | op :: rest => freshAdds (opApply c op) rest

theorem opRun_wf {c : GoCache} {ops : List CacheOp}
    (hw : wfAcct c) (hf : freshAdds c ops = true) : wfAcct (opRun c ops) := by
  induction ops generalizing c with
  | nil => simpa [opRun] using hw
  | cons op rest ih =>
    cases op with
    | add key value =>
      simp only [freshAdds, Bool.and_eq_true, Option.isNone_iff_eq_none] at hf
      have h1 : wfAcct (opApply c (.add key value)) := cacheAdd_wf hw hf.1
      exact ih h1 hf.2
    | get key =>
      simp only [freshAdds] at hf
      exact ih (cacheGet_wf key hw) hf
    | remove key =>
      simp only [freshAdds] at hf
      exact ih (cacheRemove_wf key hw) hf
    | removeOldest =>
      simp only [freshAdds] at hf
      exact ih (cacheRemoveOldest_wf hw) hf


/-! ## Eviction-loop bounds (claim C1 machinery) -/

theorem bEvictLoop_le {fuel : Nat} {cb : Int} {c c' : GoCache}
    (h : bEvictLoop fuel cb c = some c') : c'.nbytes ≤ cb := by
  induction fuel generalizing c with
  | zero => simp [bEvictLoop] at h
  | succ n ih =>
    unfold bEvictLoop at h
    by_cases hg : c.nbytes > cb
    · rw [if_pos hg] at h
      exact ih h
    · rw [if_neg hg] at h
      obtain rfl : c = c' := by injection h
      omega

theorem cEvictLoop_le (fuel : Nat) : ∀ {g g' : CGroup}, cEvictLoop fuel g = some g' →
    g'.mainCache.nbytes + g'.hotCache.nbytes ≤ g'.cacheBytes ∧ g'.cacheBytes = g.cacheBytes := by
  induction fuel with
  | zero => intro g g' h; simp [cEvictLoop] at h
  | succ n ih =>
    intro g g' h
    unfold cEvictLoop at h
    by_cases hg : g.mainCache.nbytes + g.hotCache.nbytes ≤ g.cacheBytes
    · rw [if_pos hg] at h
      obtain rfl : g = g' := by injection h
      exact ⟨hg, rfl⟩
    · rw [if_neg hg] at h
      by_cases hv : g.hotCache.nbytes > Int.tdiv g.mainCache.nbytes 8
      · rw [if_pos hv] at h
        exact ⟨(ih h).1, (ih h).2⟩
      · rw [if_neg hv] at h
        exact ⟨(ih h).1, (ih h).2⟩

/-- The call-site shape of the batch `populateCache` in `load`, `sets` and
`getFromPeer`: the target pointer is `&g.mainCache`. -/
def populateMainB (g : BGroup) (key : String) (value : ByteView) : Option BGroup :=
  (populateCacheB g.cacheBytes g.mainCache key value).map (fun m => { g with mainCache := m })

/-- A batch group holding some bytes in its hot shard, under a 10-byte
budget. -/
def bGroupEx : BGroup :=
  { name := "colors"
    cacheBytes := 10
    mainCache := emptyGoCache
    hotCache := some (cacheAdd emptyGoCache "hhhh" ⟨"vvvv"⟩)
    hotDetector := none
    stats := ⟨0, 0, 0, 0, 0, 0, 0, 0⟩ }

/-- A classic group with both shards empty, under a 10-byte budget. -/
def cGroupEx : CGroup :=
  { name := "colors"
    cacheBytes := 10
    mainCache := emptyCCache
    hotCache := emptyCCache
    stats := ⟨0, 0, 0, 0, 0, 0, 0, 0, 0⟩ }

/-- C1 (counterexample): in the batch generation, a `populateCache` call
into `mainCache` returns with `mainCache.bytes + hotCache.bytes = 14`
exceeding `cacheBytes = 10`: the batch eviction loop only inspects the
target shard's own bytes. -/
theorem claimC1_counterexample :
    (populateMainB bGroupEx "abc" ⟨"def"⟩).map
        (fun g' => (g'.mainCache.nbytes + (g'.hotCache.getD emptyGoCache).nbytes, g'.cacheBytes))
      = some (14, 10) ∧ (10 : Int) < 14 := by
  constructor
  · decide
  · decide

/-- C1 (amended): the classic `populateCache` maintains
`mainCache.bytes + hotCache.bytes ≤ cacheBytes` whenever it returns (with
`cacheBytes > 0`); the batch `populateCache` bounds only the target shard's
own bytes by `cacheBytes`. -/
theorem claimC1_amended :
    (∀ (g : CGroup) (key : String) (v : ByteView) (which : CacheType) (g' : CGroup),
      0 < g.cacheBytes → populateCacheC g key v which = some g' →
      g'.mainCache.nbytes + g'.hotCache.nbytes ≤ g.cacheBytes)
    ∧ (∀ (cb : Int) (c : GoCache) (key : String) (v : ByteView) (c' : GoCache),
      0 < cb → populateCacheB cb c key v = some c' → c'.nbytes ≤ cb) := by
  constructor
  · intro g key v which g' hcb h
    unfold populateCacheC at h
    rw [if_neg (by omega : ¬ g.cacheBytes ≤ 0)] at h
    cases which with
    | main =>
      simp only at h
      have := cEvictLoop_le _ h
      simp only at this
      omega
    | hot =>
      simp only at h
      have := cEvictLoop_le _ h
      simp only at this
      omega
  · intro cb c key v c' hcb h
    unfold populateCacheB at h
    rw [if_neg (by omega : ¬ cb ≤ 0)] at h
    exact bEvictLoop_le h

/-- C1 (witness): concrete populate calls on 10-byte-budget groups. -/
theorem claimC1_witness :
    (populateCacheC cGroupEx "k" ⟨"ab"⟩ CacheType.main).elim False
        (fun g' => g'.mainCache.nbytes + g'.hotCache.nbytes ≤ cGroupEx.cacheBytes)
    ∧ (populateCacheB 10 emptyGoCache "k" ⟨"ab"⟩).elim False (fun c' => c'.nbytes ≤ 10) := by
  constructor
  · cases h : populateCacheC cGroupEx "k" ⟨"ab"⟩ CacheType.main with
    | none =>
      have hs : (populateCacheC cGroupEx "k" ⟨"ab"⟩ CacheType.main).isSome = true := by decide
      rw [h] at hs
      simp at hs
    | some g' =>
      have := claimC1_amended.1 cGroupEx "k" ⟨"ab"⟩ CacheType.main g' (by decide) h
      simpa [Option.elim] using this
  · cases h : populateCacheB 10 emptyGoCache "k" ⟨"ab"⟩ with
    | none =>
      have hs : (populateCacheB 10 emptyGoCache "k" ⟨"ab"⟩).isSome = true := by decide
      rw [h] at hs
      simp at hs
    | some c' =>
      have := claimC1_amended.2 10 emptyGoCache "k" ⟨"ab"⟩ c' (by decide) h
      simpa [Option.elim] using this

/-! ## Claim C4 -/

/-- C4 (counterexample): starting from the empty shard, two `add` calls for
the same key leave `nbytes = 6` while the single held entry sums to `3`:
`cache.add` adds the full entry size again on an in-place replacement. -/
theorem claimC4_counterexample :
    (opRun emptyGoCache [CacheOp.add "k" ⟨"ab"⟩, CacheOp.add "k" ⟨"ab"⟩]).nbytes = 6 ∧
    sumBytes (opRun emptyGoCache [CacheOp.add "k" ⟨"ab"⟩, CacheOp.add "k" ⟨"ab"⟩]) = 3 := by
  constructor
  · decide
  · decide

/-- C4 (amended): over every sequence of `add`/`get`/`remove`/`removeOldest`
in which no `add` hits a key currently held, `nbytes` stays equal to the sum
of `len(key)+value.Len()` over the shard's resident+history entries.
(An `add` replacing a held key's value breaks exactness, per the
counterexample.) -/
theorem claimC4_nbytes_invariant (c : GoCache) (ops : List CacheOp)
    (hw : wfAcct c) (hf : freshAdds c ops = true) : wfAcct (opRun c ops) :=
  opRun_wf hw hf

/-- C4 (witness): a concrete mixed operation sequence from the empty shard. -/
theorem claimC4_witness :
    wfAcct (opRun emptyGoCache
      [CacheOp.add "k" ⟨"ab"⟩, CacheOp.get "k", CacheOp.add "j" ⟨"c"⟩,
       CacheOp.removeOldest, CacheOp.remove "k"]) :=
  claimC4_nbytes_invariant emptyGoCache _ rfl (by decide)


/-! ## LRU-K structural lemmas (claims C7, C8) -/

theorem trimHistory_no {mh : Int} {c : LRUKCache}
    (h : ¬ (c.historyList.length : Int) > mh) (fuel : Nat) :
    trimHistory fuel mh c = (c, []) := by
  cases fuel with
  | zero => rfl
  | succ n => unfold trimHistory; rw [if_neg h]

theorem enforceLoop_no {c : LRUKCache} (h : ¬ lenK c > c.maxEntries) (fuel : Nat) :
    enforceLoop fuel c = (c, []) := by
  cases fuel with
  | zero => rfl
  | succ n => unfold enforceLoop; rw [if_neg h]

theorem trimHistory_cons (mh : Int) (hmh : 1 ≤ mh) : ∀ (fuel : Nat) (c : LRUKCache)
    (p : String × ByteView) (rest : List (String × ByteView)),
    c.historyList = p :: rest →
    ∃ rest', (trimHistory fuel mh c).1 = { c with historyList := p :: rest' } ∧
      rest'.Sublist rest := by
  intro fuel
  induction fuel with
  | zero =>
    intro c p rest hc
    refine ⟨rest, ?_, List.Sublist.refl rest⟩
    rw [← hc]
    rfl
  | succ n ih =>
    intro c p rest hc
    unfold trimHistory
    by_cases hg : (c.historyList.length : Int) > mh
    · rw [if_pos hg]
      cases rest with
      | nil =>
        rw [hc] at hg
        simp at hg
        omega
      | cons q rest0 =>
        have hpop : (popBack c.historyList).1 = p :: (q :: rest0).dropLast := by
          rw [popBack_fst, hc, List.dropLast_cons₂]
        obtain ⟨rest', h1, h2⟩ :=
          ih { c with historyList := (popBack c.historyList).1 } p ((q :: rest0).dropLast)
            (by rw [hpop])
        refine ⟨rest', ?_, ?_⟩
        · rw [h1]
        · exact h2.trans (List.dropLast_sublist (q :: rest0))
    · rw [if_neg hg]
      refine ⟨rest, ?_, List.Sublist.refl rest⟩
      rw [← hc]

theorem addK_fresh {c : LRUKCache} {key : String} {v : ByteView}
    (hc : qlookup key c.cacheList = none) (hh : qlookup key c.historyList = none)
    (hroom : c.maxEntries ≤ 0 ∨ lenK c + 1 ≤ c.maxEntries) :
    ∃ rest', (addK c key v).1 =
      { c with
        historyList := (key, v) :: rest'
        accessCount := fun k' => if k' = key then 1 else c.accessCount k' } ∧
      rest'.Sublist c.historyList := by
  unfold addK
  rw [hc, hh]
  simp only
  set c1 : LRUKCache :=
    { c with
      historyList := (key, v) :: c.historyList
      accessCount := fun k' => if k' = key then 1 else c.accessCount k' } with hc1
  unfold enforceMaxEntries
  by_cases hm : c1.maxEntries ≤ 0
  · rw [if_pos hm]
    exact ⟨c.historyList, rfl, List.Sublist.refl _⟩
  · rw [if_neg hm]
    simp only
    have hmh : 1 ≤ (if Int.tdiv c1.maxEntries 2 < 1 then 1 else Int.tdiv c1.maxEntries 2) := by
      by_cases h2 : Int.tdiv c1.maxEntries 2 < 1
      · rw [if_pos h2]
      · rw [if_neg h2]; omega
    obtain ⟨rest', h1, h2⟩ :=
      trimHistory_cons _ hmh c1.historyList.length c1 (key, v) c.historyList rfl
    rw [h1]
    have hroom2 : lenK c + 1 ≤ c.maxEntries := by
      rcases hroom with h | h
      · exact absurd h hm
      · exact h
    have hlen : ¬ lenK { c1 with historyList := (key, v) :: rest' } >
        { c1 with historyList := (key, v) :: rest' }.maxEntries := by
      have hsl : rest'.length ≤ c.historyList.length := h2.length_le
      simp only [lenK, hc1] at hroom2 ⊢
      push_cast
      push_cast at hroom2
      simp only [List.length_cons]
      omega
    rw [enforceLoop_no hlen]
    exact ⟨rest', rfl, h2⟩


/-! ## Claims C7 and C8 -/

/-- C7 (counterexample): with `NewLRUK(1, 2)` (a legal LRU-K store with
K=2), warming key "a" to Resident and then Add-ing the fresh key "b" leaves
"b" in neither queue: `enforceMaxEntries` evicts the back of History, which
is the just-inserted key.  The claim's "after a single Add the key resides
in the History queue" fails. -/
theorem claimC7_counterexample :
    qlookup "b" (addK (getK (addK (NewLRUK 1 2) "a" ⟨"x"⟩).1 "a").1 "b" ⟨"y"⟩).1.historyList
      = none ∧
    qlookup "b" (addK (getK (addK (NewLRUK 1 2) "a" ⟨"x"⟩).1 "a").1 "b" ⟨"y"⟩).1.cacheList
      = none := by
  constructor
  · decide
  · decide

/-- C7 (amended): for every LRU-K store with K=2 and a key held by neither
queue, provided the size bounds cannot evict the fresh insert
(`maxEntries ≤ 0`, the shard's configuration, or room for one more entry):
after one `Add` the key sits in History and not in Resident; a following
`Get` reports a hit with the stored value and promotes the key to Resident,
leaving History without it. -/
theorem claimC7_amended (c : LRUKCache) (key : String) (v : ByteView)
    (hk : c.k = 2)
    (hc : qlookup key c.cacheList = none) (hh : qlookup key c.historyList = none)
    (hroom : c.maxEntries ≤ 0 ∨ lenK c + 1 ≤ c.maxEntries) :
    qlookup key (addK c key v).1.historyList = some v ∧
    qlookup key (addK c key v).1.cacheList = none ∧
    (getK (addK c key v).1 key).2 = some v ∧
    qlookup key (getK (addK c key v).1 key).1.cacheList = some v ∧
    qlookup key (getK (addK c key v).1 key).1.historyList = none := by
  obtain ⟨rest', h1, hsub⟩ := addK_fresh hc hh hroom
  have hrest : qlookup key rest' = none := qlookup_none_of_sublist hsub hh
  rw [h1]
  refine ⟨?_, ?_, ?_, ?_, ?_⟩
  · simp [qlookup]
  · simpa using hc
  · simp [getK, hc, qlookup, hk, promoteToCache]
  · simp [getK, hc, qlookup, hk, promoteToCache]
  · simp [getK, hc, qlookup, hk, promoteToCache, qerase, hrest]

/-- C7 (witness): the empty K=2 store of the shard configuration
(`NewLRUK(0, 2)`) with key "hot". -/
theorem claimC7_witness :
    qlookup "hot" (addK (NewLRUK 0 2) "hot" ⟨"v"⟩).1.historyList = some ⟨"v"⟩ ∧
    qlookup "hot" (addK (NewLRUK 0 2) "hot" ⟨"v"⟩).1.cacheList = none ∧
    (getK (addK (NewLRUK 0 2) "hot" ⟨"v"⟩).1 "hot").2 = some ⟨"v"⟩ ∧
    qlookup "hot" (getK (addK (NewLRUK 0 2) "hot" ⟨"v"⟩).1 "hot").1.cacheList = some ⟨"v"⟩ ∧
    qlookup "hot" (getK (addK (NewLRUK 0 2) "hot" ⟨"v"⟩).1 "hot").1.historyList = none :=
  claimC7_amended (NewLRUK 0 2) "hot" ⟨"v"⟩ rfl rfl rfl (Or.inl (by decide))

/-- C8 (confirmed): `RemoveOldest` removes the back of History whenever
History is non-empty (Resident untouched), removes the back of Resident only
when History is empty, and is a no-op on an empty store. -/
theorem claimC8_removeOldest (c : LRUKCache) :
    (c.historyList ≠ [] →
      (removeOldestK c).1.historyList = c.historyList.dropLast ∧
      (removeOldestK c).1.cacheList = c.cacheList ∧
      (removeOldestK c).2 = c.historyList.getLast?.toList)
    ∧ (c.historyList = [] → c.cacheList ≠ [] →
      (removeOldestK c).1.cacheList = c.cacheList.dropLast ∧
      (removeOldestK c).1.historyList = [] ∧
      (removeOldestK c).2 = c.cacheList.getLast?.toList)
    ∧ (c.historyList = [] → c.cacheList = [] → removeOldestK c = (c, [])) := by
  refine ⟨?_, ?_, ?_⟩
  · intro hne
    cases hH : c.historyList with
    | nil => exact absurd hH hne
    | cons a t =>
      refine ⟨?_, ?_, ?_⟩ <;> simp [removeOldestK, hH, popBack_fst, popBack_snd]
  · intro hh hcne
    cases hC : c.cacheList with
    | nil => exact absurd hC hcne
    | cons a t =>
      refine ⟨?_, ?_, ?_⟩ <;> simp [removeOldestK, hh, hC, popBack_fst, popBack_snd]
  · intro hh hc
    simp [removeOldestK, hh, hc]

/-- A small concrete LRU-K store with one Resident and one History entry. -/
def lrukEx : LRUKCache :=
  { maxEntries := 0
    k := 2
    cacheList := [("c", ⟨"v"⟩)]
    historyList := [("h", ⟨"w"⟩)]
    accessCount := fun _ => 0 }

/-- C8 (witness): the non-empty-History clause at a concrete store. -/
theorem claimC8_witness :
    (removeOldestK lrukEx).1.historyList = lrukEx.historyList.dropLast ∧
    (removeOldestK lrukEx).1.cacheList = lrukEx.cacheList ∧
    (removeOldestK lrukEx).2 = lrukEx.historyList.getLast?.toList :=
  (claimC8_removeOldest lrukEx).1 (by decide)


/-! ## Claim C10 -/

/-- C10 (confirmed): the batch internal `get` with the empty key bumps
`Gets`, then returns the "key is required" error before consulting either
cache tier (both cache fields of the returned group are the caller's,
untouched — not even their `nget` probes moved) and without invoking the
Getter (invocation count 0). -/
theorem claimC10_empty_key (env : BEnv) (g : BGroup) (rands : List ℚ) :
    getB env g "" rands =
      some (bBump g (fun s => { s with Gets := s.Gets + 1 }), .error "key is required", 0, rands)
    ∧ (bBump g (fun s => { s with Gets := s.Gets + 1 })).mainCache = g.mainCache
    ∧ (bBump g (fun s => { s with Gets := s.Gets + 1 })).hotCache = g.hotCache
    ∧ (bBump g (fun s => { s with Gets := s.Gets + 1 })).stats.Gets = g.stats.Gets + 1 :=
  ⟨rfl, rfl, rfl, rfl⟩

/-! ## Claim C5 -/

/-- A batch group with an empty main shard, an empty hot shard and a roomy
budget. -/
def bGroupEx2 : BGroup :=
  { name := "colors"
    cacheBytes := 100
    mainCache := emptyGoCache
    hotCache := some emptyGoCache
    hotDetector := none
    stats := ⟨0, 0, 0, 0, 0, 0, 0, 0⟩ }

/-- C5 (counterexample): in the batch generation a successful peer fetch
admits the value into `mainCache` — unconditionally, with no 1/10 draw and
no detector gate — and leaves `hotCache` alone: after
`getFromPeer("k", ok "vv")` the key sits in mainCache (3 bytes) while
hotCache still holds 0 bytes. -/
theorem claimC5_counterexample :
    (getFromPeerB bGroupEx2 "k" (.ok "vv")).map
      (fun p => (qlookup "k" (entriesOf p.1.mainCache), p.1.mainCache.nbytes,
                 (p.1.hotCache.getD emptyGoCache).nbytes))
      = some (some ⟨"vv"⟩, 3, 0) := by
  decide

theorem cRemoveOldest_entries_sublist (c : CCache) :
    (entriesC (cRemoveOldest c)).Sublist (entriesC c) := by
  obtain ⟨lru, nb, nh, ng, ne⟩ := c
  cases lru with
  | none => exact List.Sublist.refl _
  | some l =>
    simp only [cRemoveOldest, entriesC, lruRemoveOldest, popBack_fst]
    exact List.dropLast_sublist l.ll

theorem cEvictLoop_main_sublist (fuel : Nat) : ∀ {g g' : CGroup},
    cEvictLoop fuel g = some g' →
    (entriesC g'.mainCache).Sublist (entriesC g.mainCache) := by
  induction fuel with
  | zero => intro g g' h; simp [cEvictLoop] at h
  | succ n ih =>
    intro g g' h
    unfold cEvictLoop at h
    by_cases hg : g.mainCache.nbytes + g.hotCache.nbytes ≤ g.cacheBytes
    · rw [if_pos hg] at h
      obtain rfl : g = g' := by injection h
      exact List.Sublist.refl _
    · rw [if_neg hg] at h
      by_cases hv : g.hotCache.nbytes > Int.tdiv g.mainCache.nbytes 8
      · rw [if_pos hv] at h
        exact ih (g := { g with hotCache := cRemoveOldest g.hotCache }) h
      · rw [if_neg hv] at h
        exact (ih (g := { g with mainCache := cRemoveOldest g.mainCache }) h).trans
          (cRemoveOldest_entries_sublist g.mainCache)

/-- C5 (amended): in the classic generation, a successful peer fetch with a
negative 1/10 draw leaves the whole group unchanged; with a positive draw it
admits the value by `populateCache(..., &g.hotCache)` — the admission target
is hotCache only, and mainCache can only shrink (budget eviction), never
gain the fetched entry.  The draw is the bare `rand.Intn(10) == 0`, not
gated by any hot detector (the classic Group has none).  In the batch
generation, `getFromPeer` instead admits into `mainCache` unconditionally
and leaves hotCache untouched. -/
theorem claimC5_amended :
    (∀ (g : CGroup) (key bytes : String),
      getFromPeerC g key (.ok bytes) false = some (g, .ok ⟨bytes⟩))
    ∧ (∀ (g : CGroup) (key bytes : String) (g' : CGroup),
      populateCacheC g key ⟨bytes⟩ CacheType.hot = some g' →
      getFromPeerC g key (.ok bytes) true = some (g', .ok ⟨bytes⟩) ∧
      (entriesC g'.mainCache).Sublist (entriesC g.mainCache))
    ∧ (∀ (g : BGroup) (key bytes : String) (p : BGroup × Except String ByteView),
      getFromPeerB g key (.ok bytes) = some p →
      p.1.hotCache = g.hotCache ∧
      populateCacheB g.cacheBytes g.mainCache key ⟨bytes⟩ = some p.1.mainCache ∧
      p.2 = .ok ⟨bytes⟩) := by
  refine ⟨?_, ?_, ?_⟩
  · intro g key bytes
    rfl
  · intro g key bytes g' hpop
    constructor
    · have heq : getFromPeerC g key (.ok bytes) true =
          (populateCacheC g key ⟨bytes⟩ CacheType.hot).map (fun g'' => (g'', .ok ⟨bytes⟩)) := rfl
      rw [heq, hpop]
      rfl
    · unfold populateCacheC at hpop
      by_cases hcb : g.cacheBytes ≤ 0
      · rw [if_pos hcb] at hpop
        obtain rfl : g = g' := by injection hpop
        exact List.Sublist.refl _
      · rw [if_neg hcb] at hpop
        simp only at hpop
        exact cEvictLoop_main_sublist _
          (g := { g with hotCache := cAdd g.hotCache key ⟨bytes⟩ }) hpop
  · intro g key bytes p h
    have heq : getFromPeerB g key (.ok bytes) =
        (populateCacheB g.cacheBytes g.mainCache key ⟨bytes⟩).map
          (fun m' => ({ g with mainCache := m' }, .ok ⟨bytes⟩)) := rfl
    rw [heq] at h
    cases hp : populateCacheB g.cacheBytes g.mainCache key ⟨bytes⟩ with
    | none => rw [hp] at h; simp at h
    | some m' =>
      rw [hp] at h
      have h3 : (({ g with mainCache := m' } : BGroup),
          (Except.ok ⟨bytes⟩ : Except String ByteView)) = p := by
        injection h
      subst h3
      exact ⟨rfl, rfl, rfl⟩

/-- C5 (witness): the negative-draw classic case and a concrete batch peer
fetch. -/
theorem claimC5_witness :
    getFromPeerC cGroupEx "k" (.ok "ab") false = some (cGroupEx, .ok ⟨"ab"⟩)
    ∧ (getFromPeerB bGroupEx2 "k" (.ok "vv")).elim False
        (fun p => p.1.hotCache = bGroupEx2.hotCache ∧
          populateCacheB bGroupEx2.cacheBytes bGroupEx2.mainCache "k" ⟨"vv"⟩
            = some p.1.mainCache ∧
          p.2 = .ok ⟨"vv"⟩) := by
  constructor
  · exact claimC5_amended.1 cGroupEx "k" "ab"
  · cases h : getFromPeerB bGroupEx2 "k" (.ok "vv") with
    | none =>
      have hs : (getFromPeerB bGroupEx2 "k" (.ok "vv")).isSome = true := by decide
      rw [h] at hs
      simp at hs
    | some p =>
      simpa [Option.elim] using claimC5_amended.2.2 bGroupEx2 "k" "vv" p h


/-! ## Claim C3 -/

theorem cGet_nbytes (c : CCache) (key : String) : (cGet c key).1.nbytes = c.nbytes := by
  obtain ⟨lru, nb, nh, ng, ne⟩ := c
  cases lru with
  | none => rfl
  | some l =>
    simp only [cGet]
    cases hr : (lruGet l key).2 <;> rfl

theorem lookupCacheC_nbytes (g : CGroup) (key : String) :
    (lookupCacheC g key).1.mainCache.nbytes = g.mainCache.nbytes ∧
    (lookupCacheC g key).1.hotCache.nbytes = g.hotCache.nbytes := by
  simp only [lookupCacheC]
  by_cases hcb : g.cacheBytes ≤ 0
  · rw [if_pos hcb]
    exact ⟨rfl, rfl⟩
  · rw [if_neg hcb]
    cases h : (cGet g.mainCache key).2 with
    | some v => exact ⟨cGet_nbytes g.mainCache key, rfl⟩
    | none => exact ⟨cGet_nbytes g.mainCache key, cGet_nbytes g.hotCache key⟩

theorem bLocalLoad_invokes_getter (env : BEnv) (g : BGroup) (key : String) (rands : List ℚ)
    (out : BGroup × Except String ByteView × Nat × List ℚ)
    (h : bLocalLoad env g key rands = some out) : out.2.2.1 = 1 := by
  unfold bLocalLoad at h
  cases hg : env.getter key with
  | error e =>
    rw [hg] at h
    simp only [Option.some_inj] at h
    rw [← h]
  | ok v =>
    rw [hg] at h
    simp only at h
    cases hp : populateCacheB
        (bBump g fun s => { s with LocalLoads := s.LocalLoads + 1 }).cacheBytes
        (bBump g fun s => { s with LocalLoads := s.LocalLoads + 1 }).mainCache key v with
    | none => rw [hp] at h; simp at h
    | some m' =>
      rw [hp] at h
      simp only [Option.map_some', Option.some_inj] at h
      cases hd : (bBump g fun s => { s with LocalLoads := s.LocalLoads + 1 }).hotDetector with
      | none => rw [hd] at h; rw [← h]
      | some det => rw [hd] at h; rw [← h]

/-- C3 (amended): in the classic generation, the singleflight callback of
`load` re-consults `lookupCache` first: when the key is (by then) cached it
returns the cached value with `destPopulated = false`, invokes no getter,
and leaves both shards' byte counts unchanged — so two serialized misses
populate at most once.  In the batch generation the callback has no such
re-check: with a local owner it invokes the getter on every run, cached or
not. -/
theorem claimC3_amended :
    (∀ (env : CEnv) (g : CGroup) (key : String) (sink : Option ByteView) (v : ByteView),
      (lookupCacheC g key).2 = some v →
      loadBodyC env g key sink =
        some (cBump (lookupCacheC g key).1 (fun s => { s with CacheHits := s.CacheHits + 1 }),
          sink, .ok (v, false), 0) ∧
      (lookupCacheC g key).1.mainCache.nbytes = g.mainCache.nbytes ∧
      (lookupCacheC g key).1.hotCache.nbytes = g.hotCache.nbytes)
    ∧ (∀ (env : BEnv) (g : BGroup) (key : String) (rands : List ℚ)
        (out : BGroup × Except String ByteView × Nat × List ℚ),
      env.pick key = none → loadBodyB env g key rands = some out →
      out.2.2.1 = 1) := by
  constructor
  · intro env g key sink v hv
    refine ⟨?_, (lookupCacheC_nbytes g key).1, (lookupCacheC_nbytes g key).2⟩
    simp only [loadBodyC, hv]
  · intro env g key rands out hp h
    unfold loadBodyB at h
    rw [hp] at h
    exact bLocalLoad_invokes_getter env g key rands out h

/-- A batch environment whose peer picker always answers "local owner" and
whose getter always succeeds with "vv". -/
def bEnvEx : BEnv := { pick := fun _ => none, getter := fun _ => .ok ⟨"vv"⟩ }

/-- A batch group with an empty main shard and no hot tier. -/
def bGroupEx3 : BGroup :=
  { name := "colors"
    cacheBytes := 100
    mainCache := emptyGoCache
    hotCache := none
    hotDetector := none
    stats := ⟨0, 0, 0, 0, 0, 0, 0, 0⟩ }

/-- C3 (counterexample): running the batch singleflight callback twice in
sequence for the same key — the exact serialized-misses scenario of the
claim — has the second run invoke the getter again (count 1) and populate
again: `mainCache.nbytes` ends at 6 while the single held entry sums to 3.
The claim's "re-consults the local cache before any peer or origin load"
does not hold for the batch `load`. -/
theorem claimC3_counterexample :
    ((loadBodyB bEnvEx bGroupEx3 "k" []).bind (fun out1 => loadBodyB bEnvEx out1.1 "k" [])).map
      (fun out2 => (out2.2.2.1, out2.1.mainCache.nbytes, (entriesOf out2.1.mainCache).length,
        sumBytes out2.1.mainCache))
      = some (1, 6, 1, 3) := by
  decide

/-- A classic environment: local owner, failing getter, negative draw. -/
def cEnvEx : CEnv := { pick := fun _ => none, pop := false, getter := fun _ => .error "nope" }

/-- A batch environment with no peers whose getter always fails. -/
def bEnvErrEx : BEnv := { pick := fun _ => none, getter := fun _ => .error "nope" }

/-- A classic group already holding "k" in its main shard. -/
def cGroupEx2 : CGroup :=
  { name := "colors"
    cacheBytes := 100
    mainCache := cAdd emptyCCache "k" ⟨"ab"⟩
    hotCache := emptyCCache
    stats := ⟨0, 0, 0, 0, 0, 0, 0, 0, 0⟩ }

/-- C3 (witness): the classic callback on a cached key, and a batch callback
run with a local owner. -/
theorem claimC3_witness :
    (loadBodyC cEnvEx cGroupEx2 "k" none =
      some (cBump (lookupCacheC cGroupEx2 "k").1 (fun s => { s with CacheHits := s.CacheHits + 1 }),
        none, .ok (⟨"ab"⟩, false), 0) ∧
      (lookupCacheC cGroupEx2 "k").1.mainCache.nbytes = cGroupEx2.mainCache.nbytes ∧
      (lookupCacheC cGroupEx2 "k").1.hotCache.nbytes = cGroupEx2.hotCache.nbytes)
    ∧ (loadBodyB bEnvEx bGroupEx3 "k" []).elim False (fun out => out.2.2.1 = 1) := by
  constructor
  · exact claimC3_amended.1 cEnvEx cGroupEx2 "k" none ⟨"ab"⟩ (by decide)
  · cases h : loadBodyB bEnvEx bGroupEx3 "k" [] with
    | none =>
      have hs : (loadBodyB bEnvEx bGroupEx3 "k" []).isSome = true := by decide
      rw [h] at hs
      simp at hs
    | some out =>
      simpa [Option.elim] using claimC3_amended.2 bEnvEx bGroupEx3 "k" [] out rfl h


/-! ## SingleFlight invariant (claims C2, C6 machinery) -/


/-! ## SingleFlight invariant proofs (claims C2, C6 machinery) -/

theorem if_some_cases {α : Type} {x : α} {g : Option α} {X : α} {b : Prop} [Decidable b]
    (h : (if b then some x else g) = some X) : (b ∧ X = x) ∨ (¬ b ∧ g = some X) := by
  by_cases hb : b
  · rw [if_pos hb] at h
    injection h with h2
    exact Or.inl ⟨hb, h2.symm⟩
  · rw [if_neg hb] at h
    exact Or.inr ⟨hb, h⟩

theorem if_none_cases {α : Type} {g : Option α} {X : α} {b : Prop} [Decidable b]
    (h : (if b then none else g) = some X) : ¬ b ∧ g = some X := by
  by_cases hb : b
  · rw [if_pos hb] at h
    simp at h
  · rw [if_neg hb] at h
    exact ⟨hb, h⟩

theorem sfInit_thr {keys : List String} {t : Nat} {pc : SFPc}
    (h : (sfInit keys).thr t = some pc) : ∃ k, pc = SFPc.start k := by
  simp only [sfInit] at h
  cases hk : keys.get? t with
  | none => rw [hk] at h; simp at h
  | some k =>
    rw [hk] at h
    simp only [Option.map_some', Option.some_inj] at h
    exact ⟨k, h.symm⟩

theorem sfInv_init (keys : List String) : SFInv (sfInit keys) := by
  constructor
  · intro c _
    rfl
  · intro k c h
    simp [sfInit] at h
  · intro t1 t2 c h1 h2
    exfalso
    rcases h1 with h1 | h1 <;> obtain ⟨k1, hk1⟩ := sfInit_thr h1 <;> simp at hk1
  · intro t c h
    obtain ⟨k1, hk1⟩ := sfInit_thr h
    simp at hk1
  · intro t c h
    obtain ⟨k1, hk1⟩ := sfInit_thr h
    simp at hk1
  · intro c call h
    simp [sfInit] at h
  · intro t c r h
    obtain ⟨k1, hk1⟩ := sfInit_thr h
    simp at hk1
  · intro t c h
    obtain ⟨k1, hk1⟩ := sfInit_thr h
    simp at hk1

theorem sfInv_join {s : SFState} (hinv : SFInv s) {t : Nat} {k : String} {c : Nat}
    (_hthr : s.thr t = some (.start k)) (hm : s.m k = some c) :
    SFInv (sfSetThr s t (.wait c)) := by
  have hex : ∃ call, s.calls c = some call := by
    obtain ⟨call, hcall, _⟩ := hinv.mCalls k c hm
    exact ⟨call, hcall⟩
  have howns : ∀ u c', sfOwns (sfSetThr s t (.wait c)) u c' → sfOwns s u c' := by
    intro u c' h
    rcases h with h | h <;> rw [sfSetThr_thr] at h <;> rcases if_some_cases h with ⟨_, hX⟩ | ⟨_, h2⟩
    · simp at hX
    · exact Or.inl h2
    · simp at hX
    · exact Or.inr h2
  constructor
  · exact hinv.callsLt
  · exact hinv.mCalls
  · intro t1 t2 c' h1 h2
    exact hinv.ownerUnique t1 t2 c' (howns t1 c' h1) (howns t2 c' h2)
  · intro t' c' h
    rw [sfSetThr_thr] at h
    rcases if_some_cases h with ⟨_, hX⟩ | ⟨_, h2⟩
    · simp at hX
    · exact hinv.runSt t' c' h2
  · intro t' c' h
    rw [sfSetThr_thr] at h
    rcases if_some_cases h with ⟨_, hX⟩ | ⟨_, h2⟩
    · simp at hX
    · exact hinv.cleanSt t' c' h2
  · exact hinv.invOnce
  · intro t' c' r h
    rw [sfSetThr_thr] at h
    rcases if_some_cases h with ⟨_, hX⟩ | ⟨_, h2⟩
    · simp at hX
    · exact hinv.doneSt t' c' r h2
  · intro t' c' h
    rw [sfSetThr_thr] at h
    rcases if_some_cases h with ⟨_, hX⟩ | ⟨_, h2⟩
    · obtain ⟨call, hcall⟩ := hex
      have : c' = c := by
        simp only [SFPc.wait.injEq] at hX
        omega
      subst this
      exact ⟨call, hcall⟩
    · exact hinv.waitSt t' c' h2

theorem sfInv_joinDone {s : SFState} (hinv : SFInv s) {t c : Nat} {call : SFCall} {r : SFRes}
    (hthr : s.thr t = some (.wait c)) (hcall : s.calls c = some call) (hst : call.st = some r) :
    SFInv (sfSetThr s t (.done c r)) := by
  have howns : ∀ u c', sfOwns (sfSetThr s t (.done c r)) u c' → sfOwns s u c' := by
    intro u c' h
    rcases h with h | h <;> rw [sfSetThr_thr] at h <;> rcases if_some_cases h with ⟨_, hX⟩ | ⟨_, h2⟩
    · simp at hX
    · exact Or.inl h2
    · simp at hX
    · exact Or.inr h2
  constructor
  · exact hinv.callsLt
  · exact hinv.mCalls
  · intro t1 t2 c' h1 h2
    exact hinv.ownerUnique t1 t2 c' (howns t1 c' h1) (howns t2 c' h2)
  · intro t' c' h
    rw [sfSetThr_thr] at h
    rcases if_some_cases h with ⟨_, hX⟩ | ⟨_, h2⟩
    · simp at hX
    · exact hinv.runSt t' c' h2
  · intro t' c' h
    rw [sfSetThr_thr] at h
    rcases if_some_cases h with ⟨_, hX⟩ | ⟨_, h2⟩
    · simp at hX
    · exact hinv.cleanSt t' c' h2
  · exact hinv.invOnce
  · intro t' c' r' h
    rw [sfSetThr_thr] at h
    rcases if_some_cases h with ⟨_, hX⟩ | ⟨_, h2⟩
    · simp only [SFPc.done.injEq] at hX
      obtain ⟨hc, hr⟩ := hX
      subst hc
      subst hr
      exact ⟨call, hcall, hst⟩
    · exact hinv.doneSt t' c' r' h2
  · intro t' c' h
    rw [sfSetThr_thr] at h
    rcases if_some_cases h with ⟨_, hX⟩ | ⟨_, h2⟩
    · simp at hX
    · exact hinv.waitSt t' c' h2


theorem sfInv_calls_lt {s : SFState} (hinv : SFInv s) {c : Nat} {call : SFCall}
    (h : s.calls c = some call) : c < s.next := by
  by_contra hlt
  push_neg at hlt
  rw [hinv.callsLt c hlt] at h
  exact Option.noConfusion h

theorem sfInv_create {s : SFState} (hinv : SFInv s) {t : Nat} {k : String}
    (_hthr : s.thr t = some (.start k)) (hm : s.m k = none) : SFInv (sfCreate s t k) := by
  have hno : ∀ u, ¬ sfOwns s u s.next := by
    intro u h
    rcases h with h | h
    · obtain ⟨call, hcall, _⟩ := hinv.runSt u s.next h
      rw [hinv.callsLt s.next le_rfl] at hcall
      exact Option.noConfusion hcall
    · obtain ⟨call, r, hcall, _⟩ := hinv.cleanSt u s.next h
      rw [hinv.callsLt s.next le_rfl] at hcall
      exact Option.noConfusion hcall
  have hsplit : ∀ u c', sfOwns (sfCreate s t k) u c' → (u = t ∧ c' = s.next) ∨ sfOwns s u c' := by
    intro u c' h
    rcases h with h | h <;> rw [sfCreate_thr] at h <;>
      rcases if_some_cases h with ⟨hu, hX⟩ | ⟨hu, h2⟩
    · simp only [SFPc.run.injEq] at hX
      exact Or.inl ⟨hu, hX⟩
    · exact Or.inr (Or.inl h2)
    · simp at hX
    · exact Or.inr (Or.inr h2)
  constructor
  · intro c' hc'
    rw [sfCreate_calls, sfCreate_next] at *
    rw [if_neg (by omega : ¬ c' = s.next)]
    exact hinv.callsLt c' (by omega)
  · intro k' c' h
    rw [sfCreate_m] at h
    rcases if_some_cases h with ⟨hk', hc'⟩ | ⟨hk', h2⟩
    · subst hc'
      refine ⟨⟨k, none, 0⟩, ?_, hk'.symm⟩
      rw [sfCreate_calls, if_pos rfl]
    · obtain ⟨call, hcall, hkey⟩ := hinv.mCalls k' c' h2
      refine ⟨call, ?_, hkey⟩
      rw [sfCreate_calls, if_neg (by have := sfInv_calls_lt hinv hcall; omega)]
      exact hcall
  · intro t1 t2 c' h1 h2
    rcases hsplit t1 c' h1 with ⟨e1, ec1⟩ | o1 <;> rcases hsplit t2 c' h2 with ⟨e2, ec2⟩ | o2
    · rw [e1, e2]
    · subst ec1
      exact absurd o2 (hno t2)
    · subst ec2
      exact absurd o1 (hno t1)
    · exact hinv.ownerUnique t1 t2 c' o1 o2
  · intro t' c' h
    rw [sfCreate_thr] at h
    rcases if_some_cases h with ⟨ht', hX⟩ | ⟨ht', h2⟩
    · simp only [SFPc.run.injEq] at hX
      subst hX
      refine ⟨⟨k, none, 0⟩, ?_, rfl, rfl, ?_⟩
      · rw [sfCreate_calls, if_pos rfl]
      · rw [sfCreate_m, if_pos rfl]
    · obtain ⟨call, hcall, hst, hni, hmk⟩ := hinv.runSt t' c' h2
      refine ⟨call, ?_, hst, hni, ?_⟩
      · rw [sfCreate_calls, if_neg (by have := sfInv_calls_lt hinv hcall; omega)]
        exact hcall
      · rw [sfCreate_m]
        rw [if_neg ?_]
        · exact hmk
        · intro he
          rw [he] at hmk
          rw [hm] at hmk
          exact Option.noConfusion hmk
  · intro t' c' h
    rw [sfCreate_thr] at h
    rcases if_some_cases h with ⟨ht', hX⟩ | ⟨ht', h2⟩
    · simp at hX
    · obtain ⟨call, r, hcall, hst, hmk⟩ := hinv.cleanSt t' c' h2
      refine ⟨call, r, ?_, hst, ?_⟩
      · rw [sfCreate_calls, if_neg (by have := sfInv_calls_lt hinv hcall; omega)]
        exact hcall
      · rw [sfCreate_m]
        rw [if_neg ?_]
        · exact hmk
        · intro he
          rw [he] at hmk
          rw [hm] at hmk
          exact Option.noConfusion hmk
  · intro c' call' h
    rw [sfCreate_calls] at h
    rcases if_some_cases h with ⟨_, hc'⟩ | ⟨_, h2⟩
    · rw [hc']
      exact Or.inl ⟨rfl, rfl⟩
    · exact hinv.invOnce c' call' h2
  · intro t' c' r h
    rw [sfCreate_thr] at h
    rcases if_some_cases h with ⟨ht', hX⟩ | ⟨ht', h2⟩
    · simp at hX
    · obtain ⟨call, hcall, hst⟩ := hinv.doneSt t' c' r h2
      refine ⟨call, ?_, hst⟩
      rw [sfCreate_calls, if_neg (by have := sfInv_calls_lt hinv hcall; omega)]
      exact hcall
  · intro t' c' h
    rw [sfCreate_thr] at h
    rcases if_some_cases h with ⟨ht', hX⟩ | ⟨ht', h2⟩
    · simp at hX
    · obtain ⟨call, hcall⟩ := hinv.waitSt t' c' h2
      refine ⟨call, ?_⟩
      rw [sfCreate_calls, if_neg (by have := sfInv_calls_lt hinv hcall; omega)]
      exact hcall


theorem sfInv_finish {s : SFState} (hinv : SFInv s) {t c : Nat} {call : SFCall} (r : SFRes)
    (hthr : s.thr t = some (.run c)) (hcall : s.calls c = some call) :
    SFInv (sfFinish s t c call r) := by
  obtain ⟨call0, hc0, hst0, hni0, hm0⟩ := hinv.runSt t c hthr
  rw [hcall] at hc0
  injection hc0 with hc0
  subst hc0
  have hsplit : ∀ u c', sfOwns (sfFinish s t c call r) u c' →
      (u = t ∧ c' = c) ∨ (u ≠ t ∧ sfOwns s u c') := by
    intro u c' h
    rcases h with h | h <;> rw [sfFinish_thr] at h <;>
      rcases if_some_cases h with ⟨hu, hX⟩ | ⟨hu, h2⟩
    · simp at hX
    · exact Or.inr ⟨hu, Or.inl h2⟩
    · simp only [SFPc.clean.injEq] at hX
      exact Or.inl ⟨hu, hX⟩
    · exact Or.inr ⟨hu, Or.inr h2⟩
  constructor
  · intro c' hc'
    rw [sfFinish_calls]
    rw [if_neg (by have := sfInv_calls_lt hinv hcall; rw [sfFinish_next] at hc'; omega)]
    exact hinv.callsLt c' (by rw [sfFinish_next] at hc'; exact hc')
  · intro k' c' h
    have h2 : s.m k' = some c' := h
    obtain ⟨call', hcall', hkey'⟩ := hinv.mCalls k' c' h2
    by_cases hc' : c' = c
    · subst hc'
      rw [hcall] at hcall'
      injection hcall' with he
      subst he
      refine ⟨{ call with st := some r, nInv := call.nInv + 1 }, ?_, hkey'⟩
      rw [sfFinish_calls, if_pos rfl]
    · refine ⟨call', ?_, hkey'⟩
      rw [sfFinish_calls, if_neg hc']
      exact hcall'
  · intro t1 t2 c' h1 h2
    rcases hsplit t1 c' h1 with ⟨e1, ec1⟩ | ⟨hu1, o1⟩ <;>
      rcases hsplit t2 c' h2 with ⟨e2, ec2⟩ | ⟨hu2, o2⟩
    · rw [e1, e2]
    · subst ec1
      exact absurd (hinv.ownerUnique t2 t c' o2 (Or.inl hthr)) hu2
    · subst ec2
      exact absurd (hinv.ownerUnique t1 t c' o1 (Or.inl hthr)) hu1
    · exact hinv.ownerUnique t1 t2 c' o1 o2
  · intro t' c' h
    rw [sfFinish_thr] at h
    rcases if_some_cases h with ⟨ht', hX⟩ | ⟨ht', h2⟩
    · simp at hX
    · obtain ⟨call', hcall', hst', hni', hmk'⟩ := hinv.runSt t' c' h2
      have hne : c' ≠ c := by
        intro he
        subst he
        exact ht' (hinv.ownerUnique t' t c' (Or.inl h2) (Or.inl hthr))
      refine ⟨call', ?_, hst', hni', hmk'⟩
      rw [sfFinish_calls, if_neg hne]
      exact hcall'
  · intro t' c' h
    rw [sfFinish_thr] at h
    rcases if_some_cases h with ⟨ht', hX⟩ | ⟨ht', h2⟩
    · simp only [SFPc.clean.injEq] at hX
      subst hX
      refine ⟨{ call with st := some r, nInv := call.nInv + 1 }, r, ?_, rfl, hm0⟩
      rw [sfFinish_calls, if_pos rfl]
    · obtain ⟨call', r', hcall', hst', hmk'⟩ := hinv.cleanSt t' c' h2
      have hne : c' ≠ c := by
        intro he
        subst he
        exact ht' (hinv.ownerUnique t' t c' (Or.inr h2) (Or.inl hthr))
      refine ⟨call', r', ?_, hst', hmk'⟩
      rw [sfFinish_calls, if_neg hne]
      exact hcall'
  · intro c' call' h
    rw [sfFinish_calls] at h
    rcases if_some_cases h with ⟨hc', he⟩ | ⟨hc', h2⟩
    · rw [he]
      exact Or.inr ⟨r, rfl, by rw [hni0]⟩
    · exact hinv.invOnce c' call' h2
  · intro t' c' r' h
    rw [sfFinish_thr] at h
    rcases if_some_cases h with ⟨ht', hX⟩ | ⟨ht', h2⟩
    · simp at hX
    · obtain ⟨call', hcall', hst'⟩ := hinv.doneSt t' c' r' h2
      have hne : c' ≠ c := by
        intro he
        subst he
        rw [hcall] at hcall'
        injection hcall' with he2
        subst he2
        rw [hst0] at hst'
        exact Option.noConfusion hst'
      refine ⟨call', ?_, hst'⟩
      rw [sfFinish_calls, if_neg hne]
      exact hcall'
  · intro t' c' h
    rw [sfFinish_thr] at h
    rcases if_some_cases h with ⟨ht', hX⟩ | ⟨ht', h2⟩
    · simp at hX
    · obtain ⟨call', hcall'⟩ := hinv.waitSt t' c' h2
      by_cases hc' : c' = c
      · subst hc'
        exact ⟨{ call with st := some r, nInv := call.nInv + 1 }, by rw [sfFinish_calls, if_pos rfl]⟩
      · exact ⟨call', by rw [sfFinish_calls, if_neg hc']; exact hcall'⟩

theorem sfInv_cleanup {s : SFState} (hinv : SFInv s) {t c : Nat} {call : SFCall} {r : SFRes}
    (hthr : s.thr t = some (.clean c)) (hcall : s.calls c = some call) (hst : call.st = some r) :
    SFInv (sfCleanup s t c call r) := by
  obtain ⟨call0, r0, hc0, hst0, hm0⟩ := hinv.cleanSt t c hthr
  rw [hcall] at hc0
  injection hc0 with hc0
  subst hc0
  have hsplit : ∀ u c', sfOwns (sfCleanup s t c call r) u c' → u ≠ t ∧ sfOwns s u c' := by
    intro u c' h
    rcases h with h | h <;> rw [sfCleanup_thr] at h <;>
      rcases if_some_cases h with ⟨hu, hX⟩ | ⟨hu, h2⟩
    · simp at hX
    · exact ⟨hu, Or.inl h2⟩
    · simp at hX
    · exact ⟨hu, Or.inr h2⟩
  constructor
  · intro c' hc'
    exact hinv.callsLt c' hc'
  · intro k' c' h
    rw [sfCleanup_m] at h
    obtain ⟨hk', h2⟩ := if_none_cases h
    exact hinv.mCalls k' c' h2
  · intro t1 t2 c' h1 h2
    obtain ⟨_, o1⟩ := hsplit t1 c' h1
    obtain ⟨_, o2⟩ := hsplit t2 c' h2
    exact hinv.ownerUnique t1 t2 c' o1 o2
  · intro t' c' h
    rw [sfCleanup_thr] at h
    rcases if_some_cases h with ⟨ht', hX⟩ | ⟨ht', h2⟩
    · simp at hX
    · obtain ⟨call', hcall', hst', hni', hmk'⟩ := hinv.runSt t' c' h2
      refine ⟨call', hcall', hst', hni', ?_⟩
      rw [sfCleanup_m]
      rw [if_neg ?_]
      · exact hmk'
      · intro he
        rw [he] at hmk'
        rw [hm0] at hmk'
        injection hmk' with he2
        rw [he2] at hthr
        exact ht' (hinv.ownerUnique t' t c' (Or.inl h2) (Or.inr hthr))
  · intro t' c' h
    rw [sfCleanup_thr] at h
    rcases if_some_cases h with ⟨ht', hX⟩ | ⟨ht', h2⟩
    · simp at hX
    · obtain ⟨call', r', hcall', hst', hmk'⟩ := hinv.cleanSt t' c' h2
      refine ⟨call', r', hcall', hst', ?_⟩
      rw [sfCleanup_m]
      rw [if_neg ?_]
      · exact hmk'
      · intro he
        rw [he] at hmk'
        rw [hm0] at hmk'
        injection hmk' with he2
        rw [he2] at hthr
        exact ht' (hinv.ownerUnique t' t c' (Or.inr h2) (Or.inr hthr))
  · intro c' call' h
    exact hinv.invOnce c' call' h
  · intro t' c' r' h
    rw [sfCleanup_thr] at h
    rcases if_some_cases h with ⟨ht', hX⟩ | ⟨ht', h2⟩
    · simp only [SFPc.done.injEq] at hX
      obtain ⟨hc', hr'⟩ := hX
      subst hc'
      subst hr'
      exact ⟨call, hcall, hst⟩
    · exact hinv.doneSt t' c' r' h2
  · intro t' c' h
    rw [sfCleanup_thr] at h
    rcases if_some_cases h with ⟨ht', hX⟩ | ⟨ht', h2⟩
    · simp at hX
    · exact hinv.waitSt t' c' h2

theorem sfInv_step {s s' : SFState} (hinv : SFInv s) (hstep : SFStep s s') : SFInv s' := by
  cases hstep with
  | join t k c hthr hm => exact sfInv_join hinv hthr hm
  | create t k hthr hm => exact sfInv_create hinv hthr hm
  | finish t c call r hthr hcall => exact sfInv_finish hinv r hthr hcall
  | cleanup t c call r hthr hcall hst => exact sfInv_cleanup hinv hthr hcall hst
  | joinDone t c call r hthr hcall hst => exact sfInv_joinDone hinv hthr hcall hst

theorem sfInv_reach {keys : List String} {s : SFState} (h : SFReach keys s) : SFInv s := by
  induction h with
  | refl => exact sfInv_init keys
  | tail hsteps hstep ih => exact sfInv_step ih hstep


/-! ## Claim C2 -/

/-- C2 (confirmed): in the singleflight model, for every reachable
interleaving state: (a) at most one thread is inside `fn` for any key —
two threads running calls with the same key are the same thread; (b) `fn`
runs exactly once per in-flight window — a call that is still running has
invocation count 0 and a completed call has invocation count exactly 1;
(c) every caller that returns from a window returns the identical
`(value, err)` pair. -/
theorem claimC2_singleflight (keys : List String) (s : SFState) (h : SFReach keys s) :
    (∀ t1 t2 c1 c2 call1 call2,
      s.thr t1 = some (.run c1) → s.thr t2 = some (.run c2) →
      s.calls c1 = some call1 → s.calls c2 = some call2 →
      call1.key = call2.key → t1 = t2)
    ∧ (∀ c call, s.calls c = some call →
      call.nInv ≤ 1 ∧ (call.st = none → call.nInv = 0) ∧ ∀ r, call.st = some r → call.nInv = 1)
    ∧ (∀ t1 t2 c r1 r2,
      s.thr t1 = some (.done c r1) → s.thr t2 = some (.done c r2) → r1 = r2) := by
  have hinv := sfInv_reach h
  refine ⟨?_, ?_, ?_⟩
  · intro t1 t2 c1 c2 call1 call2 h1 h2 hc1 hc2 hkey
    obtain ⟨call1', hcall1', _, _, hm1⟩ := hinv.runSt t1 c1 h1
    obtain ⟨call2', hcall2', _, _, hm2⟩ := hinv.runSt t2 c2 h2
    rw [hc1] at hcall1'
    injection hcall1' with he1
    subst he1
    rw [hc2] at hcall2'
    injection hcall2' with he2
    subst he2
    rw [hkey] at hm1
    rw [hm2] at hm1
    injection hm1 with he3
    rw [he3] at h2
    exact hinv.ownerUnique t1 t2 c1 (Or.inl h1) (Or.inl h2)
  · intro c call hc
    rcases hinv.invOnce c call hc with ⟨hst, hni⟩ | ⟨r, hst, hni⟩
    · refine ⟨by omega, fun _ => hni, fun r' hr => ?_⟩
      rw [hst] at hr
      exact Option.noConfusion hr
    · refine ⟨by omega, fun h0 => ?_, fun r' _ => hni⟩
      rw [hst] at h0
      exact Option.noConfusion h0
  · intro t1 t2 c r1 r2 h1 h2
    obtain ⟨call1, hc1, hst1⟩ := hinv.doneSt t1 c r1 h1
    obtain ⟨call2, hc2, hst2⟩ := hinv.doneSt t2 c r2 h2
    rw [hc1] at hc2
    injection hc2 with he
    subst he
    rw [hst1] at hst2
    exact Option.some_inj.mp hst2

/-- Two concurrent callers of `Do("red", fn)`, after the first caller's
locked region registered the call and started `fn`. -/
def sfEx1 : SFState := sfCreate (sfInit ["red", "red"]) 0 "red"

/-- C2 (witness): the state after one `create` step is reachable; the
three clauses hold there. -/
theorem claimC2_witness :
    (∀ t1 t2 c1 c2 call1 call2,
      sfEx1.thr t1 = some (.run c1) → sfEx1.thr t2 = some (.run c2) →
      sfEx1.calls c1 = some call1 → sfEx1.calls c2 = some call2 →
      call1.key = call2.key → t1 = t2)
    ∧ (∀ c call, sfEx1.calls c = some call →
      call.nInv ≤ 1 ∧ (call.st = none → call.nInv = 0) ∧ ∀ r, call.st = some r → call.nInv = 1)
    ∧ (∀ t1 t2 c r1 r2,
      sfEx1.thr t1 = some (.done c r1) → sfEx1.thr t2 = some (.done c r2) → r1 = r2) :=
  claimC2_singleflight ["red", "red"] sfEx1
    (Relation.ReflTransGen.single (SFStep.create (sfInit ["red", "red"]) 0 "red" rfl rfl))


/-! ## Claim C6 -/

theorem cGet_miss_eq {c : CCache} {key : String} (h : (cGet c key).2 = none) :
    (cGet c key).1 = { c with nget := c.nget + 1 } := by
  obtain ⟨lru, nb, nh, ng, ne⟩ := c
  cases lru with
  | none => rfl
  | some l =>
    simp only [cGet] at h ⊢
    cases hq : qlookup key l.ll with
    | some v =>
      simp only [lruGet, hq] at h
      exact Option.noConfusion h
    | none => simp only [lruGet, hq]

theorem cGet_snd_nget (c : CCache) (key : String) (x : Int) :
    (cGet { c with nget := x } key).2 = (cGet c key).2 := by
  obtain ⟨lru, nb, nh, ng, ne⟩ := c
  cases lru with
  | none => rfl
  | some l =>
    simp only [cGet]
    cases hr : (lruGet l key).2 <;> rfl

theorem lookupCacheC_miss {g : CGroup} {key : String}
    (hmain : (cGet g.mainCache key).2 = none) (hhot : (cGet g.hotCache key).2 = none) :
    (lookupCacheC g key).2 = none ∧
    entriesC (lookupCacheC g key).1.mainCache = entriesC g.mainCache ∧
    entriesC (lookupCacheC g key).1.hotCache = entriesC g.hotCache ∧
    (lookupCacheC g key).1.cacheBytes = g.cacheBytes ∧
    (lookupCacheC g key).1.stats = g.stats ∧
    (cGet (lookupCacheC g key).1.mainCache key).2 = none ∧
    (cGet (lookupCacheC g key).1.hotCache key).2 = none := by
  simp only [lookupCacheC]
  by_cases hcb : g.cacheBytes ≤ 0
  · rw [if_pos hcb]
    exact ⟨rfl, rfl, rfl, rfl, rfl, hmain, hhot⟩
  · rw [if_neg hcb]
    rw [hmain]
    refine ⟨hhot, ?_, ?_, rfl, rfl, ?_, ?_⟩
    · rw [cGet_miss_eq hmain]
      rfl
    · rw [cGet_miss_eq hhot]
      rfl
    · rw [cGet_miss_eq hmain]
      rw [cGet_snd_nget]
      exact hmain
    · rw [cGet_miss_eq hhot]
      rw [cGet_snd_nget]
      exact hhot

theorem loadBodyC_error {env : CEnv} {g : CGroup} {key : String} {sink : Option ByteView}
    {e : String}
    (hmain : (cGet g.mainCache key).2 = none) (hhot : (cGet g.hotCache key).2 = none)
    (hget : env.getter key = .error e)
    (hpick : env.pick key = none ∨ ∃ e', env.pick key = some (.error e')) :
    ∃ g', loadBodyC env g key sink = some (g', sink, .error e, 1) ∧
      entriesC g'.mainCache = entriesC g.mainCache ∧
      entriesC g'.hotCache = entriesC g.hotCache ∧
      g'.cacheBytes = g.cacheBytes ∧
      g'.stats.LocalLoadErrs = g.stats.LocalLoadErrs + 1 := by
  obtain ⟨hm1, he1, he2, hcb1, hstats1, hm1', hh1'⟩ := lookupCacheC_miss hmain hhot
  simp only [loadBodyC]
  rw [hm1]
  rcases hpick with hp | ⟨e', hp⟩
  · rw [hp]
    simp only [cLocalLoad]
    rw [hget]
    refine ⟨_, rfl, he1, he2, hcb1, ?_⟩
    show (lookupCacheC g key).1.stats.LocalLoadErrs + 1 = g.stats.LocalLoadErrs + 1
    rw [hstats1]
  · rw [hp]
    simp only [getFromPeerC]
    simp only [cLocalLoad]
    rw [hget]
    refine ⟨_, rfl, he1, he2, hcb1, ?_⟩
    show (lookupCacheC g key).1.stats.LocalLoadErrs + 1 = g.stats.LocalLoadErrs + 1
    rw [hstats1]

/-- C6: on an origin-getter error, in both generations the error is
returned, no entry is admitted into either shard, and the caller is not
handed a value.  Batch generation (the cited `Group.load`/`Group.getLocally`):
`loadB` returns exactly the getter's error with `mainCache`, `hotCache` and
the hot detector all unchanged (only stat counters move), after exactly one
getter invocation and no random draw consumed.  Classic generation: the full
`Get` returns exactly the error, the entries of both shards are unchanged
and the sink is returned as it was.  And in the singleflight model, every
thread finishing on a call returns that call's unique published result, so
all waiters of the window observe the same error. -/
theorem claimC6_origin_error (env : CEnv) (g : CGroup) (key : String) (sink : Option ByteView)
    (e : String)
    (hget : env.getter key = .error e)
    (hpick : env.pick key = none ∨ ∃ e', env.pick key = some (.error e'))
    (hmain : (cGet g.mainCache key).2 = none)
    (hhot : (cGet g.hotCache key).2 = none) :
    (∀ (benv : BEnv) (bg : BGroup) (bkey : String) (brands : List ℚ) (be : String),
      benv.getter bkey = .error be →
      (benv.pick bkey = none ∨ ∃ e', benv.pick bkey = some (.error e')) →
      ∃ bg', loadB benv bg bkey brands = some (bg', .error be, 1, brands) ∧
        bg'.mainCache = bg.mainCache ∧
        bg'.hotCache = bg.hotCache ∧
        bg'.hotDetector = bg.hotDetector ∧
        bg'.stats.LocalLoadErrs = bg.stats.LocalLoadErrs + 1)
    ∧ (∃ g', GetC env g key sink = some (g', sink, some e) ∧
      entriesC g'.mainCache = entriesC g.mainCache ∧
      entriesC g'.hotCache = entriesC g.hotCache ∧
      g'.stats.LocalLoadErrs = g.stats.LocalLoadErrs + 1)
    ∧ (∀ (keys : List String) (s : SFState) (t c : Nat) (call : SFCall) (r r' : SFRes),
      SFReach keys s → s.calls c = some call → call.st = some r →
      s.thr t = some (.done c r') → r' = r) := by
  refine ⟨?_, ?_, ?_⟩
  · intro benv bg bkey brands be hbe hbp
    rcases hbp with hbp | ⟨e', hbp⟩
    · refine ⟨bBump (bBump (bBump bg (fun s => { s with Loads := s.Loads + 1 }))
          (fun s => { s with LocalLoads := s.LocalLoads + 1 }))
          (fun s => { s with LocalLoadErrs := s.LocalLoadErrs + 1 }), ?_, rfl, rfl, rfl, rfl⟩
      simp only [loadB, loadBodyB, bLocalLoad, hbp, hbe]
    · refine ⟨bBump (bBump (bBump (bBump bg (fun s => { s with Loads := s.Loads + 1 }))
          (fun s => { s with PeerErrors := s.PeerErrors + 1 }))
          (fun s => { s with LocalLoads := s.LocalLoads + 1 }))
          (fun s => { s with LocalLoadErrs := s.LocalLoadErrs + 1 }), ?_, rfl, rfl, rfl, rfl⟩
      simp only [loadB, loadBodyB, getFromPeerB, bLocalLoad, hbp, hbe]
  · have h0 := @lookupCacheC_miss
      (cBump g (fun s => { s with Gets := s.Gets + 1 })) key hmain hhot
    obtain ⟨hm0, he01, he02, hcb0, hstats0, hm0', hh0'⟩ := h0
    obtain ⟨g', hload, hg1, hg2, hgcb, hgs⟩ := @loadBodyC_error
      env (cBump (lookupCacheC (cBump g (fun s => { s with Gets := s.Gets + 1 })) key).1
        (fun s => { s with Loads := s.Loads + 1 }))
      key sink e hm0' hh0' hget hpick
    refine ⟨g', ?_, ?_, ?_, ?_⟩
    · simp only [GetC]
      rw [hm0]
      simp only [loadC]
      rw [hload]
    · rw [hg1]
      exact he01
    · rw [hg2]
      exact he02
    · rw [hgs]
      show (lookupCacheC (cBump g (fun s => { s with Gets := s.Gets + 1 })) key).1.stats.LocalLoadErrs + 1
        = g.stats.LocalLoadErrs + 1
      rw [hstats0]
      rfl
  · intro keys s t c call r r' hr hcall hst hthr
    have hinv := sfInv_reach hr
    obtain ⟨call0, hc0, hst0⟩ := hinv.doneSt t c r' hthr
    rw [hcall] at hc0
    injection hc0 with he
    subst he
    rw [hst] at hst0
    exact (Option.some_inj.mp hst0).symm

/-- C6 (witness): concrete failing-getter environments, batch and classic,
over groups with the key absent. -/
theorem claimC6_witness :
    (∃ bg', loadB bEnvErrEx bGroupEx "k" [] = some (bg', .error "nope", 1, []) ∧
      bg'.mainCache = bGroupEx.mainCache ∧
      bg'.hotCache = bGroupEx.hotCache ∧
      bg'.hotDetector = bGroupEx.hotDetector ∧
      bg'.stats.LocalLoadErrs = bGroupEx.stats.LocalLoadErrs + 1)
    ∧ (∃ g', GetC cEnvEx cGroupEx "k" none = some (g', none, some "nope") ∧
      entriesC g'.mainCache = entriesC cGroupEx.mainCache ∧
      entriesC g'.hotCache = entriesC cGroupEx.hotCache ∧
      g'.stats.LocalLoadErrs = cGroupEx.stats.LocalLoadErrs + 1)
    ∧ (∀ (keys : List String) (s : SFState) (t c : Nat) (call : SFCall) (r r' : SFRes),
      SFReach keys s → s.calls c = some call → call.st = some r →
      s.thr t = some (.done c r') → r' = r) :=
  ⟨(claimC6_origin_error cEnvEx cGroupEx "k" none "nope" rfl (Or.inl rfl) (by decide)
      (by decide)).1 bEnvErrEx bGroupEx "k" [] "nope" rfl (Or.inl rfl),
   (claimC6_origin_error cEnvEx cGroupEx "k" none "nope" rfl (Or.inl rfl) (by decide)
      (by decide)).2⟩


/-! ## Claim C9 -/

theorem updateHotKeys_below {hk : HeavyKeeper} {key : String} {count : ℚ}
    (h : count < (hk.minCount : ℚ)) : updateHotKeys hk key count = hk := by
  unfold updateHotKeys
  rw [if_pos h]

theorem heapDropFirst_sublist (m : ℚ) (l : List HeapItem) : (heapDropFirst m l).Sublist l := by
  induction l with
  | nil => simp [heapDropFirst]
  | cons it its ih =>
    simp only [heapDropFirst]
    by_cases h : it.count = m
    · rw [if_pos h]
      exact List.sublist_cons_self it its
    · rw [if_neg h]
      exact ih.cons₂ it

/-- The concrete HeavyKeeper of the counterexample: all rows hash to
position 0; fingerprints of "a" and "b" collide positionally but differ. -/
def hkEx : HeavyKeeper :=
  NewHeavyKeeper 100 3 10 (mkRat 95 100) (fun _ _ => 0) (fun k => if k = "a" then 1 else 2)

/-- One access to "a" (all counters at the shared position go to 1). -/
def hkEx1 : HeavyKeeper := (hkAdd hkEx "a" []).1

/-- One access to "b": every row collides with "a"'s fingerprint and the
decrement draws (9/10 each, against probability 1/2) all fail. -/
def hkEx2 : HeavyKeeper :=
  (hkAdd hkEx1 "b" [mkRat 9 10, mkRat 9 10, mkRat 9 10]).1

/-- C9 (counterexample): after a single colliding access, "b" is reported
hot — `Add` passed the `math.MaxFloat64` sentinel because no sketch row held
"b"'s fingerprint — while its queryable estimate is 0, far below
`minCount = 10`.  "A key whose estimated count is below minCount is never
admitted to the top-K set by Add" is false. -/
theorem claimC9_counterexample :
    hkIsHot hkEx2 "b" = true ∧ hkGetCount hkEx2 "b" = 0 ∧ hkEx2.minCount = 10 := by
  refine ⟨?_, ?_, ?_⟩
  · decide
  · decide
  · decide

/-- C9 (amended): `updateHotKeys` never admits a key presented with a count
below `minCount`; hence `Add` never admits a key whose tracked matching-row
minimum is defined (some row holds the key's fingerprint after the update)
and below `minCount` — but when no row matches, `Add` substitutes the
`math.MaxFloat64` sentinel and can admit a key whose queryable estimate is 0
(see the counterexample).  The decay rebuild retains exactly the held keys
whose re-queried count reaches `minCount`, storing that re-queried count;
and `updateHotKeys` preserves the invariant that every stored top-K count is
at least `minCount`. -/
theorem claimC9_amended :
    (∀ (hk : HeavyKeeper) (key : String) (count : ℚ),
      count < (hk.minCount : ℚ) → updateHotKeys hk key count = hk)
    ∧ (∀ (hk : HeavyKeeper) (key : String) (rands : List ℚ) (c : ℚ),
      (hkSketchUpdate hk key rands).minC = some c → c < (hk.minCount : ℚ) →
      (hkAdd hk key rands).1.hotKeys = hk.hotKeys)
    ∧ (∀ (hk : HeavyKeeper) (it : HeapItem), it ∈ (hkDecay hk).hotKeys →
      (hk.minCount : ℚ) ≤ it.count ∧ it.count = hkGetCount (hkDecay hk) it.key)
    ∧ (∀ (hk : HeavyKeeper) (key : String) (count : ℚ),
      (∀ it ∈ hk.hotKeys, (hk.minCount : ℚ) ≤ it.count) →
      ∀ it ∈ (updateHotKeys hk key count).hotKeys, (hk.minCount : ℚ) ≤ it.count) := by
  refine ⟨fun hk key count h => updateHotKeys_below h, ?_, ?_, ?_⟩
  · intro hk key rands c hminC hlt
    simp only [hkAdd]
    rw [hminC]
    have : (some c).getD maxFloat64 = c := rfl
    rw [this]
    rw [@updateHotKeys_below
        { hk with counters := (hkSketchUpdate hk key rands).cs
                  fingerprint := (hkSketchUpdate hk key rands).fps } key c hlt]
  · intro hk it hmem
    simp only [hkDecay, List.mem_filterMap] at hmem
    obtain ⟨a, _, ha⟩ := hmem
    by_cases hge : (hk.minCount : ℚ) ≤ hkGetCount
        { hk with
          counters := hk.counters.map (fun row =>
            row.map (fun c => if qMul c hk.decayFactor < 1 then 0 else qMul c hk.decayFactor))
          fingerprint := (hk.fingerprint.zip hk.counters).map (fun p =>
            (p.1.zip p.2).map (fun q => if qMul q.2 hk.decayFactor < 1 then 0 else q.1)) } a.key
    · rw [if_pos hge] at ha
      injection ha with ha
      rw [← ha]
      exact ⟨hge, rfl⟩
    · rw [if_neg hge] at ha
      exact Option.noConfusion ha
  · intro hk key count hInv it hmem
    unfold updateHotKeys at hmem
    by_cases h1 : count < (hk.minCount : ℚ)
    · rw [if_pos h1] at hmem
      exact hInv it hmem
    · rw [if_neg h1] at hmem
      push_neg at h1
      by_cases h2 : hk.hotKeys.any (fun it => it.key = key)
      · rw [if_pos h2] at hmem
        simp only [List.mem_map] at hmem
        obtain ⟨it0, hit0, hfn⟩ := hmem
        by_cases h3 : it0.key = key
        · rw [if_pos h3] at hfn
          rw [← hfn]
          exact h1
        · rw [if_neg h3] at hfn
          rw [← hfn]
          exact hInv it0 hit0
      · rw [if_neg h2] at hmem
        by_cases h4 : hk.hotKeys.length < hk.topK
        · rw [if_pos h4] at hmem
          rcases List.mem_append.mp hmem with hm | hm
          · exact hInv it hm
          · simp only [List.mem_singleton] at hm
            rw [hm]
            exact h1
        · rw [if_neg h4] at hmem
          by_cases h5 : heapMinCount hk.hotKeys < count
          · rw [if_pos h5] at hmem
            rcases List.mem_append.mp hmem with hm | hm
            · exact hInv it ((heapDropFirst_sublist _ _).subset hm)
            · simp only [List.mem_singleton] at hm
              rw [hm]
              exact h1
          · rw [if_neg h5] at hmem
            exact hInv it hmem

/-- C9 (witness): a below-threshold update on the fresh sketch is dropped,
and the stored-count invariant holds across an `updateHotKeys` call. -/
theorem claimC9_witness :
    updateHotKeys hkEx "x" 1 = hkEx ∧
    (∀ it ∈ (updateHotKeys hkEx "x" 50).hotKeys, (hkEx.minCount : ℚ) ≤ it.count) :=
  ⟨claimC9_amended.1 hkEx "x" 1 (by decide),
   claimC9_amended.2.2.2 hkEx "x" 50 (by decide)⟩

end MyCache
